import Mathlib

/-!
Verification development for the translator pipeline.

This file embeds the core pure logic of the repository in Lean:
text masking and unmasking (translator_core.py), batch building
(Translator._build_batches), the bisection retry of
Translator.run.translate_with_fallback, the token pool and API manager
(translators/api_manager.py), the glossary engine (glossary.py), the
post-processor (post_processor.py), the per-endpoint memory cache
(translators/base.py) and the atomic cache persistence plus pending-set
computation (config_utils.py / Translator.run).

Strings are modelled as lists of characters (Python `str` values) and
Python dictionaries keyed by strings as total functions with default 0 /
association lists, as noted at each definition.  Bounded loops and
recursions that Python expresses by slicing are given an explicit fuel
argument that is always instantiated with a sufficient bound, so every
definition is executable by kernel reduction.
-/

namespace YT

/-! ## Python str.replace on character lists

`replaceAll pat repl xs` models Python `xs.replace(pat, repl)` for a
nonempty pattern `pat`: it scans left to right and replaces each
leftmost non-overlapping occurrence of `pat` by `repl`.  (CPython's
special behaviour for an empty pattern is not needed here: every pattern
actually passed in the sources below -- mask tokens, the `<NL>` marker,
glossary placeholders -- is nonempty, and the guard makes an empty
pattern act as the identity.)  The fuel argument is always called with
`xs.length`, which is sufficient since each step consumes at least one
character. -/

def replaceAllGo (pat repl : List Char) : Nat → List Char → List Char
  | _, [] => []
  | 0, xs => xs
  | fuel + 1, c :: rest =>
    if pat.isPrefixOf (c :: rest) ∧ pat ≠ [] then
      repl ++ replaceAllGo pat repl fuel (rest.drop (pat.length - 1))
    else
      c :: replaceAllGo pat repl fuel rest

def replaceAll (pat repl xs : List Char) : List Char :=
  replaceAllGo pat repl xs.length xs

/-! ## Text masking (translator_core.py, mask_text / unmask_text)

`PLACEHOLDER_RE = re.compile(r"(\[[^\]]+\]|\{[^{}]*\})")` matches, at
each position, either a bracket segment `[` + one or more non-`]`
characters + `]`, or a brace segment with zero or more non-brace
characters.  `re.sub` scans left to right, so the scanner below tries a
match at each character and otherwise emits the character as plain text.

Tokens are `<P0>`, `<P1>`, ... in match order (Python
`f"<P{len(tokens)}>"`); `natDigits` reproduces Python `str` on natural
numbers (decimal, most significant digit first, `"0"` for zero). -/

def digitChars : List Char := ['0', '1', '2', '3', '4', '5', '6', '7', '8', '9']

def digitChar (d : Nat) : Char := digitChars.getD (d % 10) '0'

def digitsLSBGo : Nat → Nat → List Char
  | _, 0 => []
  | 0, _ => []
  | fuel + 1, n => digitChar (n % 10) :: digitsLSBGo fuel (n / 10)

def natDigits (n : Nat) : List Char :=
  if n = 0 then ['0'] else (digitsLSBGo n n).reverse

/-- The masking token `<Pn>` as a character list. -/
def tok (n : Nat) : List Char := '<' :: 'P' :: (natDigits n ++ ['>'])

/-- The newline marker `NL_TOKEN = "<NL>"`. -/
def nlTok : List Char := ['<', 'N', 'L', '>']

/-- Regex alternative `\[[^\]]+\]` tried at a position whose character is
`[`; `cs` is the input after that `[`.  Returns the whole match and the
remaining input. -/
def matchBracket (cs : List Char) : Option (List Char × List Char) :=
  let p := cs.span (fun c => c != ']')
  match p.2 with
  | ']' :: rest => if p.1.isEmpty then none else some ('[' :: p.1 ++ [']'], rest)
  | _ => none

/-- Regex alternative `\{[^{}]*\}` tried at a position whose character is
the opening brace; `cs` is the input after it. -/
def matchBrace (cs : List Char) : Option (List Char × List Char) :=
  let p := cs.span (fun c => c != '{' && c != '}')
  match p.2 with
  | '}' :: rest => some ('{' :: p.1 ++ ['}'], rest)
  | _ => none

/-- One attempt of `PLACEHOLDER_RE` at the current position.  The two
alternatives start with distinct characters, so the alternation order of
the regex is irrelevant. -/
def matchAt : List Char → Option (List Char × List Char)
  | '[' :: cs => matchBracket cs
  | '{' :: cs => matchBrace cs
  | _ => none

/-- Left-to-right scan of `re.sub`: the result is a list of
(plain-run, match) chunks followed by a trailing plain run, so that the
original text is the interleaved concatenation.  Fuel is the input
length (each step consumes at least one character). -/
def scanChunksGo : Nat → List Char → List (List Char × List Char) × List Char
  | _, [] => ([], [])
  | 0, xs => ([], xs)
  | fuel + 1, c :: cs =>
    match matchAt (c :: cs) with
    | some (v, rest) =>
      let p := scanChunksGo fuel rest
      (([], v) :: p.1, p.2)
    | none =>
      let p := scanChunksGo fuel cs
      match p.1 with
      | [] => ([], c :: p.2)
      | (w, v) :: ps => ((c :: w, v) :: ps, p.2)

def scanChunks (xs : List Char) : List (List Char × List Char) × List Char :=
  scanChunksGo xs.length xs

/-- Render the chunk list, numbering placeholders from `n`; placeholders
with index `< k` are shown as their original text (already substituted
back) and the others as their `<Pi>` token.  `renderMix ps w n 0` is the
masked text; with `k` at least `n + ps.length` it is the original
text. -/
def renderMix : List (List Char × List Char) → List Char → Nat → Nat → List Char
  | [], w, _, _ => w
  | (a, v) :: ps, w, n, k => a ++ (if n < k then v else tok n) ++ renderMix ps w (n + 1) k

/-- The original text of a chunk list (plain runs and matches interleaved). -/
def origOf : List (List Char × List Char) → List Char → List Char
  | [], w => w
  | (a, v) :: ps, w => a ++ v ++ origOf ps w

/-- The token map produced by masking, in insertion order:
`[(<P0>, v0), (<P1>, v1), ...]`.  Python dictionaries preserve insertion
order, which is the order `unmask_text` iterates them in. -/
def tokenPairs : List (List Char × List Char) → Nat → List (List Char × List Char)
  | [], _ => []
  | (_, v) :: ps, n => (tok n, v) :: tokenPairs ps (n + 1)

/-- `mask_text` of translator_core.py on a character list: the masked
text together with the token map. -/
def mask_text (xs : List Char) : List Char × List (List Char × List Char) :=
  let p := scanChunks xs
  (renderMix p.1 p.2 0 0, tokenPairs p.1 0)

/-- `unmask_text` of translator_core.py: first replace the `<NL>` marker
by a literal newline, then substitute each token by its original text,
in token-map insertion order. -/
def unmask_text (xs : List Char) (tokens : List (List Char × List Char)) : List Char :=
  tokens.foldl (fun acc pr => replaceAll pr.1 pr.2 acc) (replaceAll nlTok ['\n'] xs)

/-! ## Batch building (Translator._build_batches) -/

/-- One item of a batch: `(s, masked, tokens)` as built by
`_build_batches`. -/
abbrev MaskItem := List Char × List Char × List (List Char × List Char)

/-- The loop of `_build_batches`: the accumulator is the current open
batch and its total masked-character count.  The close condition is
checked before appending, exactly as in the source:
`if batch and (len(batch) >= self.batch_size or total_chars + candidate_len > self.max_chars)`. -/
def buildBatchesGo (batchSize maxChars : Nat) :
    List (List Char) → List MaskItem → Nat → List (List MaskItem)
  | [], batch, _ => if batch.isEmpty then [] else [batch]
  | s :: ss, batch, totalChars =>
    let mp := mask_text s
    let candidateLen := mp.1.length
    if ¬ batch.isEmpty ∧ (batchSize ≤ batch.length ∨ maxChars < totalChars + candidateLen) then
      batch :: buildBatchesGo batchSize maxChars ss [(s, mp.1, mp.2)] candidateLen
    else
      buildBatchesGo batchSize maxChars ss (batch ++ [(s, mp.1, mp.2)]) (totalChars + candidateLen)

/-- `Translator._build_batches` (translator_core.py). -/
def build_batches (batchSize maxChars : Nat) (strings : List (List Char)) :
    List (List MaskItem) :=
  buildBatchesGo batchSize maxChars strings [] 0

/-! ## Bisection retry (Translator.run.translate_with_fallback)

The backend (`api_manager.translate_with_fallback` plus the
count-mismatch check) is abstracted as a function returning `none` when
the call raises.  `m` is the meta list of `(original, token-map)` pairs;
the single-item fallback returns `[m[0][0]]`, i.e. the original
(pre-masking) text.  On an empty failing batch Python would raise
`IndexError` on `m[0]`; `run` never builds empty batches, and the model
returns `[]` there.  Fuel bounds the bisection depth and is instantiated
with the batch length, which suffices because each half is strictly
shorter. -/

def twfTry (backend : List String → Option (List String))
    (b : List String) (m : List (String × List (String × String))) :
    Option (List String) :=
  match backend b with
  | some ts => if ts.length = m.length then some ts else none
  | none => none

def twfGo (backend : List String → Option (List String)) :
    Nat → List String → List (String × List (String × String)) → List String
  | 0, b, m =>
    match twfTry backend b m with
    | some ts => ts
    | none =>
      if b.length ≤ 1 then
        match m with
        | mh :: _ => [mh.1]
        | [] => []
      else []
  | fuel + 1, b, m =>
    match twfTry backend b m with
    | some ts => ts
    | none =>
      if b.length ≤ 1 then
        match m with
        | mh :: _ => [mh.1]
        | [] => []
      else
        twfGo backend fuel (b.take (b.length / 2)) (m.take (b.length / 2)) ++
        twfGo backend fuel (b.drop (b.length / 2)) (m.drop (b.length / 2))

/-- `translate_with_fallback` nested inside `Translator.run`. -/
def translate_with_fallback (backend : List String → Option (List String))
    (b : List String) (m : List (String × List (String × String))) : List String :=
  twfGo backend b.length b m

/-! ## Token pool (translators/api_manager.py, TokenPool)

Python dictionaries with `.get(key, 0)` defaults are modelled as total
functions with default value 0; this is observation-equivalent because
the source only ever reads them through such defaults and the decrements
are clamped with `max(0, ...)`, which is Nat subtraction.  Time is a
natural number passed explicitly where the source calls
`time.time()`. -/

structure TokenPool where
  tokens : List String
  currentIndex : Nat := 0
  usageCounts : String → Nat := fun _ => 0
  errorCounts : String → Nat := fun _ => 0
  cooldownUntil : String → Nat := fun _ => 0
  skipRounds : Nat → Nat := fun _ => 0

/-- The `while attempts < max_attempts` loop of `get_next_token`,
with `fuel` the number of remaining attempts; the fuel-0 case is the
code after the loop: prefer the first token whose cooldown has expired,
otherwise the token with the smallest `cooldown_until` (Python `min`
keeps the first minimum, as does the fold). -/
def getNextTokenGo (now : Nat) : Nat → TokenPool → Option String × TokenPool
  | 0, p =>
    let available := p.tokens.filter (fun t => p.cooldownUntil t ≤ now)
    match available with
    | t :: _ => (some t, p)
    | [] =>
      match p.tokens with
      | [] => (none, p)
      | t0 :: ts =>
        (some (ts.foldl (fun best t =>
          if p.cooldownUntil t < p.cooldownUntil best then t else best) t0), p)
  | fuel + 1, p =>
    let idx := (p.currentIndex + 1) % p.tokens.length
    let p1 : TokenPool := { p with currentIndex := idx }
    match p1.tokens[idx]? with
    | none => (none, p1)
    | some token =>
      if 0 < p1.skipRounds idx then
        getNextTokenGo now fuel
          { p1 with skipRounds := fun i => if i = idx then p1.skipRounds idx - 1 else p1.skipRounds i }
      else if now < p1.cooldownUntil token then
        getNextTokenGo now fuel p1
      else (some token, p1)

/-- `TokenPool.get_next_token`.  Returns the chosen token (if any) and
the updated pool (cursor advance and skip-round decrements are
mutations in the source). -/
def get_next_token (p : TokenPool) (now : Nat) : Option String × TokenPool :=
  if p.tokens.isEmpty then (none, p) else getNextTokenGo now (p.tokens.length * 2) p

/-- `TokenPool.record_error`: bump the error count, set
`cooldown_until[token] = now + cooldown_seconds`, and add the new
cumulative error count to the token's skip rounds (indexed by its first
position in the token list, Python `list.index`). -/
def record_error (p : TokenPool) (token : String) (now : Nat) (cooldownSeconds : Nat) :
    TokenPool :=
  let ec := p.errorCounts token + 1
  let p1 : TokenPool := { p with
    errorCounts := fun t => if t = token then ec else p.errorCounts t,
    cooldownUntil := fun t => if t = token then now + cooldownSeconds else p.cooldownUntil t }
  match p.tokens.findIdx? (fun x => x == token) with
  | some idx => { p1 with skipRounds := fun i => if i = idx then p1.skipRounds i + ec else p1.skipRounds i }
  | none => p1

/-- `TokenPool.record_success`: decay the error count and the skip
rounds by one, floored at zero (Python `max(0, x - 1)` is Nat
subtraction). -/
def record_success (p : TokenPool) (token : String) : TokenPool :=
  let p1 : TokenPool := { p with
    errorCounts := fun t => if t = token then p.errorCounts t - 1 else p.errorCounts t }
  match p.tokens.findIdx? (fun x => x == token) with
  | some idx => { p1 with skipRounds := fun i => if i = idx then p1.skipRounds i - 1 else p1.skipRounds i }
  | none => p1

/-- Iterated `record_error` on one token, one call per recorded time
stamp (each Python call reads `time.time()`). -/
def applyErrors (p : TokenPool) (token : String) (cooldownSeconds : Nat) :
    List Nat → TokenPool
  | [] => p
  | t :: ts => applyErrors (record_error p token t cooldownSeconds) token cooldownSeconds ts

/-! ## Endpoint statistics (translators/api_manager.py, APIStats)

Float arithmetic is modelled over the rationals. -/

structure APIStats where
  total_requests : Nat := 0
  successful_requests : Nat := 0
  failed_requests : Nat := 0
  total_latency : ℚ := 0
  last_error : Option String := none
  last_error_time : Nat := 0
  consecutive_failures : Nat := 0

def APIStats.success_rate (s : APIStats) : ℚ :=
  if s.total_requests = 0 then 1
  else (s.successful_requests : ℚ) / (s.total_requests : ℚ)

def APIStats.average_latency (s : APIStats) : ℚ :=
  if s.successful_requests = 0 then 0
  else s.total_latency / (s.successful_requests : ℚ)

def APIStats.record_success (s : APIStats) (latency : ℚ) : APIStats :=
  { s with
    total_requests := s.total_requests + 1,
    successful_requests := s.successful_requests + 1,
    total_latency := s.total_latency + latency,
    consecutive_failures := 0 }

def APIStats.record_failure (s : APIStats) (error : String) (now : Nat) : APIStats :=
  { s with
    total_requests := s.total_requests + 1,
    failed_requests := s.failed_requests + 1,
    last_error := some error,
    last_error_time := now,
    consecutive_failures := s.consecutive_failures + 1 }

/-- A recordable statistics event. -/
inductive StatOp where
  | success (latency : ℚ)
  | failure (error : String) (now : Nat)

def applyStatOp (s : APIStats) : StatOp → APIStats
  | .success l => s.record_success l
  | .failure e n => s.record_failure e n

/-- Every reachable statistics state: the record operations applied to a
fresh `APIStats()`. -/
def applyStatOps (ops : List StatOp) : APIStats :=
  ops.foldl applyStatOp {}

/-- The success component of `get_best_api`'s score:
`stats.success_rate * 100`. -/
def successScore (s : APIStats) : ℚ := s.success_rate * 100

/-! ## API manager fallback chain (APIManager.translate_with_fallback)

A backend of the chain bundles the translator call (`none` models a
raised exception, with `errMsg` the `str(e)` of that exception), its
statistics and its token pool.  Rate-limit sleeps have no observable
effect on the modelled state and `now` stands for `time.time()`. -/

structure Backend where
  behavior : List String → Option (List String)
  errMsg : String
  stats : APIStats
  pool : TokenPool

def maxConsecutiveFailures : Nat := 5

def failureCooldown : Nat := 300

/-- The skip test at the top of the loop: an API whose consecutive
failures reached the threshold inside the cooldown window is skipped
entirely. -/
def backendSkipped (now : Nat) (b : Backend) : Prop :=
  maxConsecutiveFailures ≤ b.stats.consecutive_failures ∧
    now - b.stats.last_error_time < failureCooldown

instance (now : Nat) (b : Backend) : Decidable (backendSkipped now b) := by
  unfold backendSkipped; infer_instance

/-- The failure branch of the loop body: record the failure, then
`pool.get_next_token()` and `pool.record_error(current_token)` (with
the default 60 second cooldown). -/
def failedBackendUpdate (now : Nat) (b : Backend) : Backend :=
  let stats1 := b.stats.record_failure b.errMsg now
  let pr := get_next_token b.pool now
  let pool1 := match pr.1 with
    | some t => record_error pr.2 t now 60
    | none => pr.2
  { b with stats := stats1, pool := pool1 }

/-- `APIManager.translate_with_fallback` over the fallback chain: the
result (success or the propagated last error) together with the updated
backend states in chain order. -/
def translate_with_fallback_api (now : Nat) (texts : List String) :
    List Backend → Option String → Except String (List String) × List Backend
  | [], lastErr => (Except.error (lastErr.getD "No translators available"), [])
  | b :: rest, lastErr =>
    if backendSkipped now b then
      let r := translate_with_fallback_api now texts rest lastErr
      (r.1, b :: r.2)
    else
      match b.behavior texts with
      | some out => (Except.ok out, { b with stats := b.stats.record_success 0 } :: rest)
      | none =>
        let r := translate_with_fallback_api now texts rest (some b.errMsg)
        (r.1, failedBackendUpdate now b :: r.2)

/-! ## Glossary engine (glossary.py)

The embedding covers literal (non-regex) case-sensitive entries, which
is what the spec's scenario and the default entry constructor use (for
them `re.escape(entry.source)` makes `finditer` find exactly the
leftmost non-overlapping literal occurrences, and replacing them from
the last match backwards equals a single left-to-right `replaceAll`).
Entries with `regex=True` or `case_sensitive=False` are outside the
embedding and are excluded by hypothesis in the theorems below. -/

structure GlossaryEntry where
  source : String
  target : String
  context : String := ""
  category : String := "general"
  case_sensitive : Bool := true
  regex : Bool := false

/-- Python `str.lower()`, character-wise (exact on the ASCII range the
glossary keys use). -/
def pyLower (s : String) : String := String.mk (s.data.map Char.toLower)

/-- The manager state: the entry list plus the `_source_index` dict,
modelled as an association list with the newest binding first (a Python
dict write overwrites, and `find?` returns the newest binding). -/
structure GlossaryManager where
  entries : List GlossaryEntry := []
  sourceIndex : List (String × GlossaryEntry) := []

/-- `GlossaryManager.add_entry` (the category index is not needed by the
claims). -/
def add_entry (gm : GlossaryManager) (e : GlossaryEntry) : GlossaryManager :=
  { entries := gm.entries ++ [e],
    sourceIndex :=
      ((if e.case_sensitive then e.source else pyLower e.source), e) :: gm.sourceIndex }

def indexLookup (gm : GlossaryManager) (k : String) : Option GlossaryEntry :=
  (gm.sourceIndex.find? (fun pr => pr.1 == k)).map Prod.snd

/-- `GlossaryManager.get_entry`: exact key first, then the lower-cased
key. -/
def get_entry (gm : GlossaryManager) (src : String) : Option GlossaryEntry :=
  match indexLookup gm src with
  | some e => some e
  | none => indexLookup gm (pyLower src)

/-- LunaTranslator-style placeholder `ZX{letter}Z`, index-suffixed from
the 25th entry on. -/
def placeholderFor (i : Nat) : String :=
  let letter := Char.ofNat (66 + i % 24)
  if i < 24 then String.mk ['Z', 'X', letter, 'Z']
  else String.mk (['Z', 'X', letter] ++ natDigits (i / 24) ++ ['Z'])

/-- The entry loop of `apply_pre_translation`: for entry `i`, if its
source occurs in the current text, replace every occurrence by the
placeholder and record `placeholder -> matched text` (for a literal
case-sensitive entry the matched text is the source itself; the dict
entry is written once per match with the same key and value, hence once
if there is any match). -/
def applyPreGo (text : List Char) :
    List GlossaryEntry → Nat → List Char × List (List Char × List Char)
  | [], _ => (text, [])
  | e :: es, i =>
    let ph := (placeholderFor i).data
    let st :=
      if e.source.data <:+: text then
        (replaceAll e.source.data ph text, [(ph, e.source.data)])
      else (text, ([] : List (List Char × List Char)))
    let rest := applyPreGo st.1 es (i + 1)
    (rest.1, st.2 ++ rest.2)

/-- `GlossaryManager.apply_pre_translation`. -/
def apply_pre_translation (gm : GlossaryManager) (text : List Char) :
    List Char × List (List Char × List Char) :=
  applyPreGo text gm.entries 0

/-- Case-insensitive prefix test, modelling `re.IGNORECASE` matching of
an escaped literal via `Char.toLower` (exact for the ASCII placeholders
involved). -/
def ciPrefixOf : List Char → List Char → Bool
  | [], _ => true
  | _ :: _, [] => false
  | a :: as, b :: bs => (a.toLower == b.toLower) && ciPrefixOf as bs

/-- `re.sub(re.escape(pat), repl, xs, flags=re.IGNORECASE)` for a
literal `pat`: leftmost non-overlapping case-insensitive occurrences. -/
def ciReplaceAllGo (pat repl : List Char) : Nat → List Char → List Char
  | _, [] => []
  | 0, xs => xs
  | fuel + 1, c :: rest =>
    if ciPrefixOf pat (c :: rest) ∧ pat ≠ [] then
      repl ++ ciReplaceAllGo pat repl fuel (rest.drop (pat.length - 1))
    else
      c :: ciReplaceAllGo pat repl fuel rest

def ciReplaceAll (pat repl xs : List Char) : List Char :=
  ciReplaceAllGo pat repl xs.length xs

/-- `GlossaryManager.apply_post_translation`: for each recorded
placeholder (in insertion order), replace it case-insensitively by the
entry's target if the original term resolves, and by the original term
otherwise. -/
def apply_post_translation (gm : GlossaryManager) (text : List Char)
    (placeholders : List (List Char × List Char)) : List Char :=
  placeholders.foldl
    (fun res pr =>
      match get_entry gm (String.mk pr.2) with
      | some e => ciReplaceAll pr.1 e.target.data res
      | none => ciReplaceAll pr.1 pr.2 res)
    text

/-- `GlossaryManager.process_before` (the context also stores the
original text, which `process_after` never reads; the placeholder map is
the part passed on). -/
def process_before (gm : GlossaryManager) (text : List Char) :
    List Char × List (List Char × List Char) :=
  apply_pre_translation gm text

/-- `GlossaryManager.process_after`. -/
def process_after (gm : GlossaryManager) (text : List Char)
    (placeholders : List (List Char × List Char)) : List Char :=
  apply_post_translation gm text placeholders

/-! ## Post-processor (post_processor.py)

The regular-expression engine behind `re.sub` is abstracted as a
`compile` parameter mapping a pattern to `none` exactly when `re.compile`
would raise `re.error` (the `except re.error: continue` path), and
otherwise to the substitution function `fun repl text => ...`.  Literal
rules use Python `str.replace`, i.e. `replaceAll`. -/

structure PostProcessRule where
  pattern : String
  replacement : String
  is_regex : Bool := false
  enabled : Bool := true
  description : String := ""

structure PostProcessor where
  rules : List PostProcessRule := []
  enabled : Bool := true

def pyReplace (t pat repl : String) : String :=
  String.mk (replaceAll pat.data repl.data t.data)

/-- The body of the rule loop in `PostProcessor.process`. -/
def applyRule (compile : String → Option (String → String → String))
    (text : String) (r : PostProcessRule) : String :=
  if r.enabled = false then text
  else if r.is_regex then
    match compile r.pattern with
    | some engine => engine r.replacement text
    | none => text
  else pyReplace text r.pattern r.replacement

/-- `PostProcessor.process`. -/
def process (compile : String → Option (String → String → String))
    (pp : PostProcessor) (text : String) : String :=
  if pp.enabled = false then text
  else pp.rules.foldl (applyRule compile) text

/-! ## Endpoint memory cache (translators/base.py)

`TranslatorBase._memory_cache` is a class attribute: one dictionary
shared by every instance (`# Class-level cache for all instances`).
The model therefore threads a single shared store through the
instance-level operations; an instance contributes only its name, which
enters the cache key `f"{self.get_name()}:{source_lang}:{target_lang}"`. -/

def MemoryCache := String → String → Option String

def emptyMemoryCache : MemoryCache := fun _ _ => none

/-- A wrapper instance: `objId` models Python object identity (two
distinct instances of the same translator class differ only there),
`name` is `get_name()`, which is determined by the class.  None of the
cache operations below reads `objId`: the store they act on is the
class attribute. -/
structure TranslatorInstance where
  objId : Nat
  name : String
deriving DecidableEq

/-- `TranslatorBase._get_cache_key`. -/
def get_cache_key (inst : TranslatorInstance) (src tgt : String) : String :=
  inst.name ++ ":" ++ src ++ ":" ++ tgt

/-- `TranslatorBase._set_cache` acting on the shared class-level store. -/
def set_cache (cache : MemoryCache) (key text trans : String) : MemoryCache :=
  fun k t => if k = key ∧ t = text then some trans else cache k t

/-- `TranslatorBase._get_from_cache` (the defaulting insertion of an
empty inner dict does not change any lookup result). -/
def get_from_cache (cache : MemoryCache) (key text : String) : Option String :=
  cache key text

/-- `_set_cache` as invoked by instance `inst`. -/
def instSetCache (cache : MemoryCache) (inst : TranslatorInstance)
    (src tgt text trans : String) : MemoryCache :=
  set_cache cache (get_cache_key inst src tgt) text trans

/-- `_get_from_cache` as invoked by instance `inst`. -/
def instGetCache (cache : MemoryCache) (inst : TranslatorInstance)
    (src tgt text : String) : Option String :=
  get_from_cache cache (get_cache_key inst src tgt) text

/-! ## Cache persistence and pending set (config_utils.safe_save_json,
Translator.run)

`safe_save_json` writes the whole document to `path.with_suffix(".tmp")`
and then `os.replace(tmp_path, path)`.  The file system is modelled by
the two file slots; `os.replace` is POSIX rename, atomic: the target
switches from its old content to the tmp content in one step.  A crash
can interrupt the `json.dump` (leaving a torn tmp file) or strike
between the steps; the observable states are runs of the prefixes of the
two-step script, with the interrupted dump modelled by a torn tmp
write. -/

inductive Doc where
  | full (content : List (String × String))
  | torn
deriving DecidableEq

structure FSState where
  target : Option Doc
  tmp : Option Doc
deriving DecidableEq

inductive SaveStep where
  | writeTmp (d : Doc)
  | rename
deriving DecidableEq

def stepFS (fs : FSState) : SaveStep → FSState
  | .writeTmp d => { fs with tmp := some d }
  | .rename => { target := fs.tmp, tmp := none }

def runSteps (fs : FSState) (steps : List SaveStep) : FSState :=
  steps.foldl stepFS fs

/-- The step sequence of `safe_save_json(path, data)`. -/
def safeSaveScript (d : List (String × String)) : List SaveStep :=
  [SaveStep.writeTmp (Doc.full d), SaveStep.rename]

/-- All states a crash can leave behind: nothing ran, the dump was
interrupted (torn tmp), the dump finished but the rename did not run,
or the whole script ran. -/
def interruptedRuns (d : List (String × String)) : List (List SaveStep) :=
  [[], [SaveStep.writeTmp Doc.torn], [SaveStep.writeTmp (Doc.full d)], safeSaveScript d]

/-- `pending = [s for s in unique_strings if s not in cache]` in
`Translator.run`; the cache is the loaded key-value document. -/
def pending_of (uniqueStrings : List String) (cache : List (String × String)) :
    List String :=
  uniqueStrings.filter (fun s => !((cache.map Prod.fst).contains s))

/-! ## Auxiliary measures and concrete instances used in the statements -/

/-- Total masked-character length of a batch (the quantity `_build_batches`
tracks in `total_chars`). -/
def sumMaskedLen (b : List MaskItem) : Nat :=
  (b.map (fun it => it.2.1.length)).sum

/-- Numeric value of a digit character (inverse of `digitChar` on digits). -/
def digitVal (c : Char) : Nat := c.toNat - 48

/-- Value of a least-significant-first digit string; used to show decimal
printing is injective. -/
def lsbVal : List Char → Nat
  | [] => 0
  | c :: cs => digitVal c + 10 * lsbVal cs

/-- A concrete pool for the `get_next_token` fallback analysis: both
tokens carry many outstanding skip rounds, both cooldowns are already
expired at time 10, and token `B` has the smaller (sooner-expiring)
`cooldown_until`. -/
def cexPool : TokenPool :=
  { tokens := ["A", "B"],
    currentIndex := 0,
    cooldownUntil := fun t => if t = "A" then 5 else if t = "B" then 3 else 0,
    skipRounds := fun i => if i ≤ 1 then 9 else 0 }

/-- Glossary with the single scenario entry `{source: "Alice", target: "爱丽丝"}`. -/
def gmAlice : GlossaryManager :=
  add_entry {} { source := "Alice", target := "爱丽丝" }

/-- A backend that always raises. -/
def bFailA : Backend :=
  { behavior := fun _ => none, errMsg := "A down", stats := {}, pool := { tokens := ["ka"] } }

/-- A backend that always succeeds, echoing its input with a marker. -/
def bEchoB : Backend :=
  { behavior := fun ts => some (ts.map (fun s => s ++ "~")), errMsg := "B down",
    stats := {}, pool := { tokens := ["kb"] } }

/-! # Theorems -/

/-! ## C4: atomic persistence and the pending set -/

/-- C4.  Every persistent-cache write goes through write-temp-then-rename,
so after an interruption the target file holds the previous document or
the complete new one, never a torn one; and at run start the pending set
is exactly the extracted strings absent from the loaded cache, so cached
strings are never re-sent. -/
theorem c4_atomic_and_pending :
    (∀ (fs0 : FSState) (d : List (String × String)) (steps : List SaveStep),
        steps ∈ interruptedRuns d →
        (runSteps fs0 steps).target = fs0.target ∨
          (runSteps fs0 steps).target = some (Doc.full d)) ∧
    (∀ (uniq : List String) (cache : List (String × String)) (s : String),
        s ∈ pending_of uniq cache ↔ s ∈ uniq ∧ s ∉ cache.map Prod.fst) ∧
    (∀ (uniq : List String) (cache : List (String × String)) (s : String),
        s ∈ cache.map Prod.fst → s ∉ pending_of uniq cache) := by
  refine ⟨?_, ?_, ?_⟩
  · intro fs0 d steps hmem
    simp only [interruptedRuns, safeSaveScript, List.mem_cons, List.mem_singleton,
      List.not_mem_nil, or_false] at hmem
    rcases hmem with h | h | h | h <;> subst h
    · exact Or.inl rfl
    · exact Or.inl rfl
    · exact Or.inl rfl
    · exact Or.inr rfl
  · intro uniq cache s
    simp [pending_of, List.mem_filter]
  · intro uniq cache s hmem hpend
    have := ((by simp [pending_of, List.mem_filter] :
      s ∈ pending_of uniq cache ↔ s ∈ uniq ∧ s ∉ cache.map Prod.fst)).mp hpend
    exact this.2 hmem

/-- Witness for C4 at a concrete crash point: the state after an
interrupted dump still shows the old target document. -/
theorem c4_witness :
    ([SaveStep.writeTmp Doc.torn] ∈ interruptedRuns [("k", "v")]) ∧
    ((runSteps { target := some (Doc.full []), tmp := none }
        [SaveStep.writeTmp Doc.torn]).target = some (Doc.full []) ∨
      (runSteps { target := some (Doc.full []), tmp := none }
        [SaveStep.writeTmp Doc.torn]).target = some (Doc.full [("k", "v")])) :=
  ⟨by decide,
    c4_atomic_and_pending.1 { target := some (Doc.full []), tmp := none } [("k", "v")]
      [SaveStep.writeTmp Doc.torn] (by decide)⟩

/-! ## C8: post-processing rules -/

/-- A disabled rule leaves the text unchanged. -/
theorem applyRule_disabled (compile : String → Option (String → String → String))
    (text : String) (r : PostProcessRule) (h : r.enabled = false) :
    applyRule compile text r = text := by
  simp [applyRule, h]

/-- The rule fold only sees the enabled rules. -/
theorem foldl_applyRule_filter (compile : String → Option (String → String → String)) :
    ∀ (rules : List PostProcessRule) (text : String),
      rules.foldl (applyRule compile) text =
        (rules.filter (fun r => r.enabled)).foldl (applyRule compile) text := by
  intro rules
  induction rules with
  | nil => intro text; rfl
  | cons r rs ih =>
    intro text
    by_cases h : r.enabled
    · simp [List.filter_cons, h, ih]
    · have h' : r.enabled = false := by simpa using h
      simp [List.filter_cons, h', ih, applyRule_disabled]

/-- C8.  `PostProcessor.process` applies exactly the enabled rules in
list order; a rule whose pattern fails to compile is skipped while the
remaining rules still run; the operation is a pure function of the text
and rule list (it is a fold of pure functions, and the regular-expression
engine enters only through the `compile` parameter). -/
theorem c8_process :
    ∀ (compile : String → Option (String → String → String)) (text : String),
      (∀ rules : List PostProcessRule,
          process compile { rules := rules, enabled := true } text =
            (rules.filter (fun r => r.enabled)).foldl (applyRule compile) text) ∧
      (∀ (r₁ r₂ : List PostProcessRule) (p rep desc : String), compile p = none →
          process compile
              { rules := r₁ ++
                  ({ pattern := p, replacement := rep, is_regex := true,
                     enabled := true, description := desc } : PostProcessRule) :: r₂,
                enabled := true } text =
            process compile { rules := r₁ ++ r₂, enabled := true } text) ∧
      (∀ ra rb : PostProcessRule,
          process compile { rules := [ra, rb], enabled := true } text =
            applyRule compile (applyRule compile text ra) rb) := by
  intro compile text
  refine ⟨?_, ?_, ?_⟩
  · intro rules
    simpa [process] using foldl_applyRule_filter compile rules text
  · intro r₁ r₂ p rep desc h
    simp only [process, if_neg (by simp : ¬ (true = false)), List.foldl_append,
      List.foldl_cons]
    have hbad : applyRule compile (r₁.foldl (applyRule compile) text)
        { pattern := p, replacement := rep, is_regex := true,
          enabled := true, description := desc } =
        r₁.foldl (applyRule compile) text := by
      simp [applyRule, h]
    rw [hbad]
  · intro ra rb
    rfl

/-- Witness for C8: a rule with an uncompilable pattern is skipped and
the remaining literal rule still fires. -/
theorem c8_witness :
    process (fun _ => none)
        { rules := [] ++
            ({ pattern := "(", replacement := "x", is_regex := true,
               enabled := true, description := "bad" } : PostProcessRule) ::
            [{ pattern := "a", replacement := "b" }],
          enabled := true } "aa" =
      process (fun _ => none)
        { rules := [] ++ [{ pattern := "a", replacement := "b" }], enabled := true } "aa" :=
  (c8_process (fun _ => none) "aa").2.1 [] [{ pattern := "a", replacement := "b" }]
    "(" "x" "bad" rfl

/-! ## C9: the memory cache is class-level shared state -/

/-- C9 counterexample.  Two distinct wrapper instances of the same
translator class: a translation written through the first instance is
immediately observed through the second, because `_memory_cache` is a
class attribute (`translators/base.py` lines 35-37), not per-instance
state.  This falsifies the claim that writes through one instance leave
the cache contents observed by another instance unchanged. -/
theorem c9_counterexample :
    (⟨0, "openai"⟩ : TranslatorInstance) ≠ (⟨1, "openai"⟩ : TranslatorInstance) ∧
    instGetCache emptyMemoryCache ⟨1, "openai"⟩ "auto" "zh" "hi" = none ∧
    instGetCache (instSetCache emptyMemoryCache ⟨0, "openai"⟩ "auto" "zh" "hi" "nihao")
        ⟨1, "openai"⟩ "auto" "zh" "hi" = some "nihao" := by
  refine ⟨by decide, rfl, ?_⟩
  simp [instGetCache, instSetCache, get_from_cache, set_cache, get_cache_key,
    emptyMemoryCache]

/-- C9 amended.  The memory cache is one shared class-level store: a
write by any instance is observed by every instance whose name and
language pair form the same cache key, and lookups under any other key
or source text are unchanged (the only isolation is via the name
component of the key). -/
theorem c9_shared_cache :
    (∀ (cache : MemoryCache) (iA iB : TranslatorInstance) (src tgt text trans : String),
        iA.name = iB.name →
        instGetCache (instSetCache cache iA src tgt text trans) iB src tgt text =
          some trans) ∧
    (∀ (cache : MemoryCache) (iA iB : TranslatorInstance)
        (src tgt src2 tgt2 text trans text2 : String),
        get_cache_key iB src2 tgt2 ≠ get_cache_key iA src tgt ∨ text2 ≠ text →
        instGetCache (instSetCache cache iA src tgt text trans) iB src2 tgt2 text2 =
          instGetCache cache iB src2 tgt2 text2) := by
  constructor
  · intro cache iA iB src tgt text trans hname
    have hk : get_cache_key iB src tgt = get_cache_key iA src tgt := by
      simp [get_cache_key, hname]
    simp [instGetCache, instSetCache, get_from_cache, set_cache, hk]
  · intro cache iA iB src tgt src2 tgt2 text trans text2 h
    have : ¬ (get_cache_key iB src2 tgt2 = get_cache_key iA src tgt ∧ text2 = text) := by
      rcases h with h | h
      · exact fun hc => h hc.1
      · exact fun hc => h hc.2
    simp [instGetCache, instSetCache, get_from_cache, set_cache, this]

/-- Witness for C9 amended: concrete cross-instance visibility. -/
theorem c9_witness :
    instGetCache (instSetCache emptyMemoryCache ⟨7, "google"⟩ "en" "fr" "cat" "chat")
        ⟨8, "google"⟩ "en" "fr" "cat" = some "chat" :=
  c9_shared_cache.1 emptyMemoryCache ⟨7, "google"⟩ ⟨8, "google"⟩ "en" "fr" "cat" "chat" rfl

/-! ## C10: success rate and ranking score -/

/-- Reachable statistics never report more successes than requests. -/
theorem statsFold_le :
    ∀ (ops : List StatOp) (s : APIStats),
      s.successful_requests ≤ s.total_requests →
      (ops.foldl applyStatOp s).successful_requests ≤
        (ops.foldl applyStatOp s).total_requests := by
  intro ops
  induction ops with
  | nil => intro s h; exact h
  | cons op rest ih =>
    intro s h
    simp only [List.foldl_cons]
    cases op with
    | success l => exact ih _ (by simp [applyStatOp, APIStats.record_success]; omega)
    | failure e n => exact ih _ (by simp [applyStatOp, APIStats.record_failure]; omega)

/-- C10.  `success_rate` is 1 when no request was recorded and
`successful/total` otherwise; consequently the success component of
`get_best_api`'s score is at most 100 on every reachable statistics
state, with the never-used backend attaining the maximum 100. -/
theorem c10_success_rate :
    (∀ s : APIStats, s.total_requests = 0 → s.success_rate = 1) ∧
    (∀ s : APIStats, 0 < s.total_requests →
        s.success_rate = (s.successful_requests : ℚ) / (s.total_requests : ℚ)) ∧
    (∀ ops : List StatOp, successScore (applyStatOps ops) ≤ 100) ∧
    successScore (applyStatOps []) = 100 := by
  refine ⟨?_, ?_, ?_, ?_⟩
  · intro s h
    simp [APIStats.success_rate, h]
  · intro s h
    simp [APIStats.success_rate, Nat.pos_iff_ne_zero.mp h]
  · intro ops
    have hle : (applyStatOps ops).successful_requests ≤ (applyStatOps ops).total_requests :=
      statsFold_le ops {} (by simp)
    have hrate : (applyStatOps ops).success_rate ≤ 1 := by
      by_cases h : (applyStatOps ops).total_requests = 0
      · simp [APIStats.success_rate, h]
      · have hpos : (0 : ℚ) < ((applyStatOps ops).total_requests : ℚ) := by
          exact_mod_cast Nat.pos_of_ne_zero h
        rw [APIStats.success_rate, if_neg h, div_le_one hpos]
        exact_mod_cast hle
    calc successScore (applyStatOps ops) = (applyStatOps ops).success_rate * 100 := rfl
      _ ≤ 1 * 100 := by
          exact mul_le_mul_of_nonneg_right hrate (by norm_num)
      _ = 100 := by norm_num
  · simp [successScore, applyStatOps, APIStats.success_rate]

/-- Witness for C10: concrete statistics with 3 successes out of 4
requests have success rate 3/4. -/
theorem c10_witness :
    ({ total_requests := 4, successful_requests := 3 } : APIStats).success_rate =
      (3 : ℚ) / 4 := by
  simpa using
    c10_success_rate.2.1 { total_requests := 4, successful_requests := 3 } (by norm_num)

/-! ## C3: batch building -/

/-- Invariant of the `_build_batches` loop: the open batch respects the
count bound, multi-item batches respect the character bound, an
oversized item sits alone, and every emitted item is the masking of its
string; the emitted batches concatenate to the processed input. -/
theorem buildBatchesGo_spec (batchSize maxChars : Nat) (hbs : 1 ≤ batchSize) :
    ∀ (ss : List (List Char)) (batch : List MaskItem) (total : Nat),
      total = sumMaskedLen batch →
      batch.length ≤ batchSize →
      (2 ≤ batch.length → sumMaskedLen batch ≤ maxChars) →
      (∀ it ∈ batch, maxChars < it.2.1.length → batch = [it]) →
      (∀ it ∈ batch, it.2 = mask_text it.1) →
      ((buildBatchesGo batchSize maxChars ss batch total).flatten.map Prod.fst =
        batch.map Prod.fst ++ ss) ∧
      (∀ b ∈ buildBatchesGo batchSize maxChars ss batch total,
        b.length ≤ batchSize ∧
        (2 ≤ b.length → sumMaskedLen b ≤ maxChars) ∧
        (∀ it ∈ b, maxChars < it.2.1.length → b = [it]) ∧
        (∀ it ∈ b, it.2 = mask_text it.1)) := by
  intro ss
  induction ss with
  | nil =>
    intro batch total htot hlen hchars hover hmask
    by_cases hb : batch.isEmpty
    · have hbe : batch = [] := List.isEmpty_iff.mp hb
      subst hbe
      simp [buildBatchesGo]
    · simp only [buildBatchesGo, if_neg hb]
      constructor
      · simp
      · intro b hbmem
        simp only [List.mem_singleton] at hbmem
        subst hbmem
        exact ⟨hlen, hchars, hover, hmask⟩
  | cons s ss ih =>
    intro batch total htot hlen hchars hover hmask
    simp only [buildBatchesGo]
    by_cases hcond :
        ¬ batch.isEmpty ∧
          (batchSize ≤ batch.length ∨ maxChars < total + (mask_text s).1.length)
    · rw [if_pos hcond]
      have hsing : ∀ it ∈ ([(s, (mask_text s).1, (mask_text s).2)] : List MaskItem),
          it.2 = mask_text it.1 := by
        intro it hit
        simp only [List.mem_singleton] at hit
        subst hit
        rfl
      have hrec := ih [(s, (mask_text s).1, (mask_text s).2)] (mask_text s).1.length
        (by simp [sumMaskedLen]) (by simpa using hbs) (by intro h2; simp at h2)
        (by intro it hit _; simp only [List.mem_singleton] at hit; subst hit; rfl)
        hsing
      constructor
      · simp only [List.flatten_cons, List.map_append, hrec.1]
        simp [sumMaskedLen]
      · intro b hbmem
        rcases List.mem_cons.mp hbmem with hb | hb
        · subst hb; exact ⟨hlen, hchars, hover, hmask⟩
        · exact hrec.2 b hb
    · rw [if_neg hcond]
      have hnot : batch.isEmpty ∨
          (batch.length < batchSize ∧ total + (mask_text s).1.length ≤ maxChars) := by
        by_cases hb : batch.isEmpty
        · exact Or.inl hb
        · right
          have h2 : ¬ (batchSize ≤ batch.length ∨
              maxChars < total + (mask_text s).1.length) :=
            fun hor => hcond ⟨hb, hor⟩
          push_neg at h2
          exact h2
      have hsum : sumMaskedLen (batch ++ [(s, (mask_text s).1, (mask_text s).2)]) =
          total + (mask_text s).1.length := by
        simp [sumMaskedLen, htot]
      have hlen2 : (batch ++ [(s, (mask_text s).1, (mask_text s).2)]).length ≤ batchSize := by
        rcases hnot with hb | ⟨hlt, _⟩
        · have : batch = [] := List.isEmpty_iff.mp hb
          subst this; simpa using hbs
        · simp only [List.length_append, List.length_singleton]
          omega
      have hchars2 : 2 ≤ (batch ++ [(s, (mask_text s).1, (mask_text s).2)]).length →
          sumMaskedLen (batch ++ [(s, (mask_text s).1, (mask_text s).2)]) ≤ maxChars := by
        intro h2
        rcases hnot with hb | ⟨_, hle⟩
        · have : batch = [] := List.isEmpty_iff.mp hb
          subst this; simp at h2
        · rw [hsum]; exact hle
      have hover2 : ∀ it ∈ batch ++ [(s, (mask_text s).1, (mask_text s).2)],
          maxChars < it.2.1.length →
          batch ++ [(s, (mask_text s).1, (mask_text s).2)] = [it] := by
        intro it hit hbig
        rcases hnot with hb | ⟨_, hle⟩
        · have : batch = [] := List.isEmpty_iff.mp hb
          subst this
          simp only [List.nil_append, List.mem_singleton] at hit
          subst hit; rfl
        · exfalso
          rcases List.mem_append.mp hit with hin | hin
          · have hsingle := hover it hin hbig
            have : sumMaskedLen batch = it.2.1.length := by
              rw [hsingle]; simp [sumMaskedLen]
            omega
          · simp only [List.mem_singleton] at hin
            subst hin
            simp only at hbig
            omega
      have hmask2 : ∀ it ∈ batch ++ [(s, (mask_text s).1, (mask_text s).2)],
          it.2 = mask_text it.1 := by
        intro it hit
        rcases List.mem_append.mp hit with hin | hin
        · exact hmask it hin
        · simp only [List.mem_singleton] at hin
          subst hin; rfl
      have hrec := ih (batch ++ [(s, (mask_text s).1, (mask_text s).2)])
        (total + (mask_text s).1.length) hsum.symm hlen2 hchars2 hover2 hmask2
      refine ⟨?_, hrec.2⟩
      rw [hrec.1]
      simp

/-- C3 counterexample.  With `batch_size = 0` (an `int` the constructor
accepts unclamped) every string still goes into a batch of size 1, so
the bound "no batch contains more than maxCount items" fails at
`maxCount = 0`. -/
theorem c3_counterexample :
    ∃ b ∈ build_batches 0 100 [['a']], 0 < b.length := by decide

/-- C3 amended.  For `maxCount ≥ 1` the batches of `_build_batches`
concatenate to the annotated input, no batch exceeds `maxCount` items,
no batch of two or more items exceeds `maxChars` in total masked length,
an oversized single string occupies a batch by itself, and every item
carries the masking of its string. -/
theorem c3_build_batches (batchSize maxChars : Nat) (strings : List (List Char))
    (hbs : 1 ≤ batchSize) :
    ((build_batches batchSize maxChars strings).flatten.map Prod.fst = strings) ∧
    (∀ b ∈ build_batches batchSize maxChars strings, b.length ≤ batchSize) ∧
    (∀ b ∈ build_batches batchSize maxChars strings,
      2 ≤ b.length → sumMaskedLen b ≤ maxChars) ∧
    (∀ b ∈ build_batches batchSize maxChars strings,
      ∀ it ∈ b, maxChars < it.2.1.length → b = [it]) ∧
    (∀ b ∈ build_batches batchSize maxChars strings, ∀ it ∈ b, it.2 = mask_text it.1) := by
  have h := buildBatchesGo_spec batchSize maxChars hbs strings [] 0
    (by simp [sumMaskedLen]) (by simp) (by intro h; simp at h)
    (by intro it hit; simp at hit) (by intro it hit; simp at hit)
  refine ⟨by simpa [build_batches] using h.1, ?_, ?_, ?_, ?_⟩
  · exact fun b hb => (h.2 b hb).1
  · exact fun b hb => (h.2 b hb).2.1
  · exact fun b hb => (h.2 b hb).2.2.1
  · exact fun b hb => (h.2 b hb).2.2.2

/-- Witness for C3 at concrete limits. -/
theorem c3_witness :
    (1 ≤ 2) ∧
    (build_batches 2 100 [['a'], ['b'], ['c']]).flatten.map Prod.fst
      = [['a'], ['b'], ['c']] :=
  ⟨by decide, (c3_build_batches 2 100 [['a'], ['b'], ['c']] (by decide)).1⟩

/-! ## C2: bisection retry -/

/-- The bisection recursion does not depend on the fuel once the fuel
reaches the batch length. -/
theorem twfGo_fuel_irrel (backend : List String → Option (List String)) :
    ∀ (n fuel₁ fuel₂ : Nat) (b : List String) (m : List (String × List (String × String))),
      b.length = n → n ≤ fuel₁ → n ≤ fuel₂ →
      twfGo backend fuel₁ b m = twfGo backend fuel₂ b m := by
  intro n
  induction n using Nat.strong_induction_on with
  | _ n ih =>
    intro fuel₁ fuel₂ b m hn h1 h2
    match fuel₁, fuel₂ with
    | 0, 0 => rfl
    | 0, f₂ + 1 =>
      have hb : b = [] := List.eq_nil_of_length_eq_zero (by omega)
      subst hb
      cases htry : twfTry backend [] m <;> simp [twfGo, htry]
    | f₁ + 1, 0 =>
      have hb : b = [] := List.eq_nil_of_length_eq_zero (by omega)
      subst hb
      cases htry : twfTry backend [] m <;> simp [twfGo, htry]
    | f₁ + 1, f₂ + 1 =>
      cases htry : twfTry backend b m with
      | some ts => simp [twfGo, htry]
      | none =>
        by_cases hb1 : b.length ≤ 1
        · simp [twfGo, htry, hb1]
        · have h2len : 2 ≤ b.length := by omega
          have htlen : (b.take (b.length / 2)).length = b.length / 2 := by
            simp only [List.length_take]
            omega
          have hdlen : (b.drop (b.length / 2)).length = b.length - b.length / 2 := by
            simp
          simp only [twfGo, htry, if_neg hb1]
          rw [ih (b.length / 2) (by omega) f₁ f₂ _ _ htlen (by omega) (by omega),
            ih (b.length - b.length / 2) (by omega) f₁ f₂ _ _ hdlen (by omega) (by omega)]

/-- Sufficient fuel computes `translate_with_fallback`. -/
theorem twfGo_fuel (backend : List String → Option (List String))
    (fuel : Nat) (b : List String) (m : List (String × List (String × String)))
    (h : b.length ≤ fuel) :
    twfGo backend fuel b m = translate_with_fallback backend b m :=
  twfGo_fuel_irrel backend b.length fuel b.length b m rfl h le_rfl

/-- C2 counterexample.  A failing single-unit batch whose masked text is
`"<P0>"` and whose original is `"[x]"`: the fallback returns the
original `"[x]"` (`return [m[0][0]]`), not the masked source text, so
the claim that the (masked) source text is returned is false. -/
theorem c2_counterexample :
    translate_with_fallback (fun _ => none) ["<P0>"] [("[x]", [])] = ["[x]"] ∧
    translate_with_fallback (fun _ => none) ["<P0>"] [("[x]", [])] ≠ ["<P0>"] := by
  constructor <;> decide

/-- C2 amended.  On a failing batch of one unit the fallback returns the
original (pre-masking) source text of that unit; on a larger failing
batch it bisects at the midpoint and retries the two contiguous halves
independently, so in a 3-unit batch where only unit 2 fails, units 1 and
3 get their backend translations and unit 2 its original source text. -/
theorem c2_bisection :
    (∀ (backend : List String → Option (List String)) (x o : String)
        (tm : List (String × String)),
        backend [x] = none →
        translate_with_fallback backend [x] [(o, tm)] = [o]) ∧
    (∀ (backend : List String → Option (List String)) (b : List String)
        (m : List (String × List (String × String))),
        2 ≤ b.length → backend b = none →
        translate_with_fallback backend b m =
          translate_with_fallback backend (b.take (b.length / 2)) (m.take (b.length / 2)) ++
            translate_with_fallback backend (b.drop (b.length / 2)) (m.drop (b.length / 2))) ∧
    (∀ (backend : List String → Option (List String)) (u1 u2 u3 o1 o2 o3 r1 r3 : String)
        (t1 t2 t3 : List (String × String)),
        backend [u1, u2, u3] = none →
        backend [u1] = some [r1] →
        backend [u2, u3] = none →
        backend [u2] = none →
        backend [u3] = some [r3] →
        translate_with_fallback backend [u1, u2, u3] [(o1, t1), (o2, t2), (o3, t3)] =
          [r1, o2, r3]) := by
  have hsingle : ∀ (backend : List String → Option (List String)) (x o : String)
      (tm : List (String × String)),
      backend [x] = none →
      translate_with_fallback backend [x] [(o, tm)] = [o] := by
    intro backend x o tm h
    simp [translate_with_fallback, twfGo, twfTry, h]
  have hbisect : ∀ (backend : List String → Option (List String)) (b : List String)
      (m : List (String × List (String × String))),
      2 ≤ b.length → backend b = none →
      translate_with_fallback backend b m =
        translate_with_fallback backend (b.take (b.length / 2)) (m.take (b.length / 2)) ++
          translate_with_fallback backend (b.drop (b.length / 2)) (m.drop (b.length / 2)) := by
    intro backend b m h2 hfail
    have htry : twfTry backend b m = none := by simp [twfTry, hfail]
    cases b with
    | nil => simp at h2
    | cons c cs =>
      simp only [List.length_cons] at h2
      have hb1 : ¬ cs.length + 1 ≤ 1 := by omega
      show twfGo backend (c :: cs).length (c :: cs) m = _
      simp only [List.length_cons]
      rw [show twfGo backend (cs.length + 1) (c :: cs) m =
          twfGo backend cs.length ((c :: cs).take ((cs.length + 1) / 2))
              (m.take ((cs.length + 1) / 2)) ++
            twfGo backend cs.length ((c :: cs).drop ((cs.length + 1) / 2))
              (m.drop ((cs.length + 1) / 2)) from by
        simp only [twfGo, htry, List.length_cons, if_neg hb1]]
      rw [twfGo_fuel backend cs.length _ _ (by
          simp only [List.length_take, List.length_cons]
          exact le_trans (Nat.min_le_left _ _) (by omega)),
        twfGo_fuel backend cs.length _ _ (by
          simp only [List.length_drop, List.length_cons]
          omega)]
  refine ⟨hsingle, hbisect, ?_⟩
  intro backend u1 u2 u3 o1 o2 o3 r1 r3 t1 t2 t3 hall h1 h23 h2 h3
  have hstep := hbisect backend [u1, u2, u3] [(o1, t1), (o2, t2), (o3, t3)]
    (by simp) hall
  simp only [List.length_cons, List.length_nil] at hstep
  norm_num at hstep
  rw [hstep]
  have hleft : translate_with_fallback backend [u1] [(o1, t1)] = [r1] := by
    simp [translate_with_fallback, twfGo, twfTry, h1]
  have hright := hbisect backend [u2, u3] [(o2, t2), (o3, t3)] (by simp) h23
  simp only [List.length_cons, List.length_nil] at hright
  norm_num at hright
  rw [hright] at *
  have hm : translate_with_fallback backend [u2] [(o2, t2)] = [o2] :=
    hsingle backend u2 o2 t2 h2
  have hr : translate_with_fallback backend [u3] [(o3, t3)] = [r3] := by
    simp [translate_with_fallback, twfGo, twfTry, h3]
  rw [hleft, hm, hr]
  rfl

/-- Witness for C2 at a concrete poisoned 3-unit batch. -/
theorem c2_witness :
    translate_with_fallback
        (fun bs => if bs.contains "u2" then none else some (bs.map (fun s => s ++ "!")))
        ["u1", "u2", "u3"] [("o1", []), ("o2", []), ("o3", [])] =
      ["u1!", "o2", "u3!"] :=
  c2_bisection.2.2
    (fun bs => if bs.contains "u2" then none else some (bs.map (fun s => s ++ "!")))
    "u1" "u2" "u3" "o1" "o2" "o3" "u1!" "u3!" [] [] []
    (by decide) (by decide) (by decide) (by decide) (by decide)

/-! ## C5: fallback chain -/

/-- A chain of skipped backends propagates the accumulated last error. -/
theorem twfapi_all_skipped (now : Nat) (texts : List String) :
    ∀ (c : List Backend) (e : String),
      (∀ a ∈ c, backendSkipped now a) →
      (translate_with_fallback_api now texts c (some e)).1 = Except.error e := by
  intro c
  induction c with
  | nil => intro e _; rfl
  | cons a rest ih =>
    intro e h
    have hs : backendSkipped now a := h a (List.mem_cons_self a rest)
    simp only [translate_with_fallback_api, if_pos hs]
    exact ih e (fun x hx => h x (List.mem_cons_of_mem a hx))

/-- C5.  Backends are tried in fallback-chain order; the first
non-skipped backend that succeeds determines the result and the
backends after it are left untouched; when the successful backend fails
the failure is recorded and the next backend is tried; if every
non-skipped backend fails, the error of the last non-skipped one
propagates; concretely, with backend A always throwing and backend B
succeeding, the call returns B's result without raising. -/
theorem c5_fallback_chain :
    (∀ (now : Nat) (texts : List String) (c₁ : List Backend) (b : Backend)
        (out : List String) (c₂ : List Backend) (lastE : Option String),
        (∀ a ∈ c₁, backendSkipped now a ∨ a.behavior texts = none) →
        ¬ backendSkipped now b →
        b.behavior texts = some out →
        (translate_with_fallback_api now texts (c₁ ++ b :: c₂) lastE).1 = Except.ok out ∧
          ∃ c₁' : List Backend, c₁'.length = c₁.length ∧
            (translate_with_fallback_api now texts (c₁ ++ b :: c₂) lastE).2 =
              c₁' ++ ({ b with stats := b.stats.record_success 0 } :: c₂)) ∧
    (∀ (now : Nat) (texts : List String) (c₁ : List Backend) (b : Backend)
        (c₂ : List Backend) (lastE : Option String),
        (∀ a ∈ c₁, ¬ backendSkipped now a → a.behavior texts = none) →
        ¬ backendSkipped now b →
        b.behavior texts = none →
        (∀ a ∈ c₂, backendSkipped now a) →
        (translate_with_fallback_api now texts (c₁ ++ b :: c₂) lastE).1 =
          Except.error b.errMsg) ∧
    (translate_with_fallback_api 0 ["hello"] [bFailA, bEchoB] none).1 =
      Except.ok ["hello~"] := by
  refine ⟨?_, ?_, ?_⟩
  · intro now texts c₁
    induction c₁ with
    | nil =>
      intro b out c₂ lastE _ hb hbeh
      simp only [List.nil_append, translate_with_fallback_api, if_neg hb, hbeh]
      exact ⟨trivial, [], rfl, rfl⟩
    | cons a c₁ ih =>
      intro b out c₂ lastE h hb hbeh
      by_cases hs : backendSkipped now a
      · simp only [List.cons_append, translate_with_fallback_api, if_pos hs]
        have hrec := ih b out c₂ lastE (fun x hx => h x (List.mem_cons_of_mem a hx)) hb hbeh
        obtain ⟨h1, c₁', hlen, h2⟩ := hrec
        exact ⟨h1, a :: c₁', by simpa using hlen, by simp [h2]⟩
      · have hfail : a.behavior texts = none := by
          rcases h a (List.mem_cons_self a c₁) with h' | h'
          · exact absurd h' hs
          · exact h'
        simp only [List.cons_append, translate_with_fallback_api, if_neg hs, hfail]
        have hrec := ih b out c₂ (some a.errMsg)
          (fun x hx => h x (List.mem_cons_of_mem a hx)) hb hbeh
        obtain ⟨h1, c₁', hlen, h2⟩ := hrec
        exact ⟨h1, failedBackendUpdate now a :: c₁', by simpa using hlen, by simp [h2]⟩
  · intro now texts c₁
    induction c₁ with
    | nil =>
      intro b c₂ lastE _ hb hbeh hskip
      simp only [List.nil_append, translate_with_fallback_api, if_neg hb, hbeh]
      exact twfapi_all_skipped now texts c₂ b.errMsg hskip
    | cons a c₁ ih =>
      intro b c₂ lastE h hb hbeh hskip
      by_cases hs : backendSkipped now a
      · simp only [List.cons_append, translate_with_fallback_api, if_pos hs]
        exact ih b c₂ lastE (fun x hx => h x (List.mem_cons_of_mem a hx)) hb hbeh hskip
      · have hfail : a.behavior texts = none := h a (List.mem_cons_self a c₁) hs
        simp only [List.cons_append, translate_with_fallback_api, if_neg hs, hfail]
        exact ih b c₂ (some a.errMsg) (fun x hx => h x (List.mem_cons_of_mem a hx)) hb
          hbeh hskip
  · rfl

/-- Witness for C5: backend A always throws, backend B echoes; the chain
returns B's result. -/
theorem c5_witness :
    (translate_with_fallback_api 7 ["hi"] ([bFailA] ++ bEchoB :: []) none).1 =
      Except.ok ["hi~"] :=
  (c5_fallback_chain.1 7 ["hi"] [bFailA] bEchoB ["hi~"] [] none
    (by
      intro a ha
      simp only [List.mem_singleton] at ha
      subst ha
      exact Or.inr rfl)
    (by
      intro hsk
      exact absurd hsk.1 (by decide))
    rfl).1

/-! ## C6: token pool selection -/

/-- C6 counterexample.  Both tokens carry more outstanding skip rounds
than the whole rotation window (2·len = 4 attempts), so a full rotation
finds no eligible token; both cooldowns are already expired at time 10
and token `B` has the sooner-expiring cooldown, yet the fallback returns
the first token `A` (the `available[0]` branch), not the token with the
soonest-expiring cooldown.  This falsifies the claimed fallback
behaviour. -/
theorem c6_counterexample :
    2 * cexPool.tokens.length ≤ cexPool.skipRounds 0 ∧
    2 * cexPool.tokens.length ≤ cexPool.skipRounds 1 ∧
    cexPool.cooldownUntil "A" ≤ 10 ∧ cexPool.cooldownUntil "B" ≤ 10 ∧
    cexPool.cooldownUntil "B" < cexPool.cooldownUntil "A" ∧
    (get_next_token cexPool 10).1 = some "A" := by
  decide

/-- A nonempty pool always yields a token. -/
theorem getNextTokenGo_isSome (now : Nat) :
    ∀ (fuel : Nat) (p : TokenPool), p.tokens ≠ [] →
      ((getNextTokenGo now fuel p).1).isSome := by
  intro fuel
  induction fuel with
  | zero =>
    intro p hp
    simp only [getNextTokenGo]
    split
    · simp
    · split
      · next h => exact absurd h hp
      · simp
  | succ fuel ih =>
    intro p hp
    have hlen : 0 < p.tokens.length := List.length_pos.mpr hp
    have hidx : (p.currentIndex + 1) % p.tokens.length < p.tokens.length :=
      Nat.mod_lt _ hlen
    simp only [getNextTokenGo, List.getElem?_eq_getElem hidx]
    split_ifs
    · exact ih _ hp
    · exact ih _ hp
    · simp

/-- Any token the loop yields has an expired cooldown, unless every
token in the pool is still cooling down. -/
theorem getNextTokenGo_sound (now : Nat) :
    ∀ (fuel : Nat) (p : TokenPool) (t : String),
      (getNextTokenGo now fuel p).1 = some t →
      p.cooldownUntil t ≤ now ∨ ∀ u ∈ p.tokens, now < p.cooldownUntil u := by
  intro fuel
  induction fuel with
  | zero =>
    intro p t h
    simp only [getNextTokenGo] at h
    split at h
    · next t0 ts havail =>
      left
      have ht0 : t0 ∈ p.tokens.filter (fun u => decide (p.cooldownUntil u ≤ now)) := by
        rw [havail]; exact List.mem_cons_self _ _
      have := List.of_mem_filter ht0
      simp only [Option.some.injEq] at h
      subst h
      simpa using this
    · next havail =>
      right
      intro u hu
      have : ¬ (p.cooldownUntil u ≤ now) := by
        have := List.filter_eq_nil_iff.mp havail u hu
        simpa using this
      omega
  | succ fuel ih =>
    intro p t h
    by_cases hp : p.tokens = []
    · simp only [getNextTokenGo] at h
      rw [List.getElem?_eq_none (by simp [hp])] at h
      simp at h
    · have hlen : 0 < p.tokens.length := List.length_pos.mpr hp
      have hidx : (p.currentIndex + 1) % p.tokens.length < p.tokens.length :=
        Nat.mod_lt _ hlen
      simp only [getNextTokenGo, List.getElem?_eq_getElem hidx] at h
      split_ifs at h with h1 h2
      · have hres := ih _ t h
        exact hres
      · have hres := ih _ t h
        exact hres
      · simp only [Option.some.injEq] at h
        subst h
        left
        omega

/-- `record_error` leaves the token list unchanged. -/
theorem record_error_tokens (p : TokenPool) (token : String) (now cs : Nat) :
    (record_error p token now cs).tokens = p.tokens := by
  simp only [record_error]
  split <;> rfl

/-- `record_error` on one token does not move another token's cooldown. -/
theorem record_error_cooldown_other (p : TokenPool) (token other : String)
    (now cs : Nat) (h : other ≠ token) :
    (record_error p token now cs).cooldownUntil other = p.cooldownUntil other := by
  simp only [record_error]
  split <;> simp [h]

/-- Iterated errors leave the token list unchanged. -/
theorem applyErrors_tokens (token : String) (cs : Nat) :
    ∀ (times : List Nat) (p : TokenPool),
      (applyErrors p token cs times).tokens = p.tokens := by
  intro times
  induction times with
  | nil => intro p; rfl
  | cons t ts ih =>
    intro p
    simp only [applyErrors]
    rw [ih, record_error_tokens]

/-- Iterated errors on one token do not move another token's cooldown. -/
theorem applyErrors_cooldown_other (token other : String) (cs : Nat)
    (h : other ≠ token) :
    ∀ (times : List Nat) (p : TokenPool),
      (applyErrors p token cs times).cooldownUntil other = p.cooldownUntil other := by
  intro times
  induction times with
  | nil => intro p; rfl
  | cons t ts ih =>
    intro p
    simp only [applyErrors]
    rw [ih, record_error_cooldown_other p token other t cs h]

/-- The cooldown after a burst of errors is set by the last one. -/
theorem applyErrors_cooldown_last (token : String) (cs : Nat) :
    ∀ (ts : List Nat) (tN : Nat) (p : TokenPool),
      (applyErrors p token cs (ts ++ [tN])).cooldownUntil token = tN + cs := by
  intro ts
  induction ts with
  | nil =>
    intro tN p
    simp only [List.nil_append, applyErrors]
    simp only [record_error]
    split <;> simp
  | cons t ts ih =>
    intro tN p
    simp only [List.cons_append, applyErrors]
    exact ih tN _

/-- C6 amended.  `get_next_token` returns `none` exactly on the empty
pool; during rotation it skips tokens in cooldown or with outstanding
skip rounds, and a returned token is never in active cooldown unless
every token is (after an exhausted rotation the code prefers the first
token whose cooldown expired, falling back to the soonest-expiring one
only when all tokens are cooling down); consequently, after consecutive
`record_error` calls on a token with no intervening `record_success`
(whose cooldown is the last error time plus the cooldown interval), that
token is not returned while its cooldown is active as long as some other
token is out of cooldown. -/
theorem c6_get_next_token :
    (∀ (p : TokenPool) (now : Nat),
        (get_next_token p now).1 = none ↔ p.tokens = []) ∧
    (∀ (p : TokenPool) (now : Nat) (t : String),
        (get_next_token p now).1 = some t →
        p.cooldownUntil t ≤ now ∨ ∀ u ∈ p.tokens, now < p.cooldownUntil u) ∧
    (∀ (p : TokenPool) (token : String) (cs : Nat) (ts : List Nat) (tN : Nat),
        (applyErrors p token cs (ts ++ [tN])).cooldownUntil token = tN + cs) ∧
    (∀ (p : TokenPool) (token other : String) (cs : Nat) (times : List Nat) (now : Nat),
        other ∈ p.tokens → other ≠ token →
        p.cooldownUntil other ≤ now →
        now < (applyErrors p token cs times).cooldownUntil token →
        (get_next_token (applyErrors p token cs times) now).1 ≠ some token) := by
  have hsound : ∀ (p : TokenPool) (now : Nat) (t : String),
      (get_next_token p now).1 = some t →
      p.cooldownUntil t ≤ now ∨ ∀ u ∈ p.tokens, now < p.cooldownUntil u := by
    intro p now t h
    by_cases hp : p.tokens.isEmpty
    · simp [get_next_token, hp] at h
    · simp only [get_next_token, if_neg hp] at h
      exact getNextTokenGo_sound now _ p t h
  refine ⟨?_, hsound,
    fun p token cs ts tN => applyErrors_cooldown_last token cs ts tN p, ?_⟩
  · intro p now
    constructor
    · intro h
      by_cases hp : p.tokens.isEmpty
      · exact List.isEmpty_iff.mp hp
      · exfalso
        have hne : p.tokens ≠ [] := fun he => hp (by simp [he])
        have := getNextTokenGo_isSome now (p.tokens.length * 2) p hne
        rw [show (get_next_token p now).1 = (getNextTokenGo now (p.tokens.length * 2) p).1 from by
          simp [get_next_token, hp]] at h
        rw [h] at this
        simp at this
    · intro h
      simp [get_next_token, h]
  · intro p token other cs times now hmem hne hcold hactive h
    have hs := hsound (applyErrors p token cs times) now token h
    rcases hs with hs | hs
    · omega
    · have hmem2 : other ∈ (applyErrors p token cs times).tokens := by
        rw [applyErrors_tokens]; exact hmem
      have := hs other hmem2
      rw [applyErrors_cooldown_other token other cs hne] at this
      omega

/-- Witness for C6: after an error burst on token `A` at time 5 with a
60 second cooldown, `A` is not returned at time 30 while `B` is free. -/
theorem c6_witness :
    (get_next_token (applyErrors { tokens := ["A", "B"] } "A" 60 [5]) 30).1 ≠
      some "A" :=
  c6_get_next_token.2.2.2 { tokens := ["A", "B"] } "A" "B" 60 [5] 30
    (by decide) (by decide) (by decide) (by decide)

/-! ## C7: glossary pre/post processing -/

/-- C7.  With the entry `{source: "Alice", target: "爱丽丝"}`:
pre-processing replaces the source term by the placeholder `ZXBZ` and
records it; with a backend that echoes its input verbatim,
post-processing yields `"爱丽丝 said hello."`, which contains the target
term and no longer contains `"Alice"`; a placeholder coming back in a
different case (`"zxbz"`) is still restored to the target term
(case-insensitive matching); and a placeholder whose recorded term has
no glossary entry is restored to that original term. -/
theorem c7_glossary :
    (process_before gmAlice "Alice said hello.".data =
      ("ZXBZ said hello.".data, [("ZXBZ".data, "Alice".data)])) ∧
    (process_after gmAlice
        (process_before gmAlice "Alice said hello.".data).1
        (process_before gmAlice "Alice said hello.".data).2 =
      "爱丽丝 said hello.".data) ∧
    ("爱丽丝".data <:+:
      process_after gmAlice
        (process_before gmAlice "Alice said hello.".data).1
        (process_before gmAlice "Alice said hello.".data).2) ∧
    (¬ ("Alice".data <:+:
      process_after gmAlice
        (process_before gmAlice "Alice said hello.".data).1
        (process_before gmAlice "Alice said hello.".data).2)) ∧
    (process_after gmAlice "zxbz said hello.".data [("ZXBZ".data, "Alice".data)] =
      "爱丽丝 said hello.".data) ∧
    (process_after gmAlice "ZXCZ said hello.".data [("ZXCZ".data, "Bob".data)] =
      "Bob said hello.".data) := by
  refine ⟨?_, ?_, ?_, ?_, ?_, ?_⟩ <;> decide

/-! ## C1: mask/unmask round trip

First the generic facts about `replaceAll` (Python `str.replace`). -/

/-- The replacement scan does not depend on the fuel once it covers the
scanned length. -/
theorem replaceAllGo_fuel_irrel (pat repl : List Char) :
    ∀ (n fuel₁ fuel₂ : Nat) (xs : List Char),
      xs.length = n → n ≤ fuel₁ → n ≤ fuel₂ →
      replaceAllGo pat repl fuel₁ xs = replaceAllGo pat repl fuel₂ xs := by
  intro n
  induction n using Nat.strong_induction_on with
  | _ n ih =>
    intro fuel₁ fuel₂ xs hn h1 h2
    cases xs with
    | nil => cases fuel₁ <;> cases fuel₂ <;> rfl
    | cons c rest =>
      simp only [List.length_cons] at hn
      match fuel₁, fuel₂ with
      | 0, _ => omega
      | f₁ + 1, 0 => omega
      | f₁ + 1, f₂ + 1 =>
        simp only [replaceAllGo]
        by_cases hc : pat.isPrefixOf (c :: rest) ∧ pat ≠ []
        · rw [if_pos hc, if_pos hc]
          have hL : 1 ≤ pat.length := by
            cases hp : pat with
            | nil => exact absurd hp hc.2
            | cons a as => simp
          congr 1
          exact ih (rest.drop (pat.length - 1)).length
            (by simp only [List.length_drop]; omega) f₁ f₂ _ rfl
            (by simp only [List.length_drop]; omega)
            (by simp only [List.length_drop]; omega)
        · rw [if_neg hc, if_neg hc]
          congr 1
          exact ih rest.length (by omega) f₁ f₂ rest rfl (by omega) (by omega)

/-- One-step equation for `replaceAll` on a cons cell. -/
theorem replaceAll_cons (pat repl : List Char) (c : Char) (rest : List Char) :
    replaceAll pat repl (c :: rest) =
      if pat.isPrefixOf (c :: rest) ∧ pat ≠ [] then
        repl ++ replaceAll pat repl (rest.drop (pat.length - 1))
      else c :: replaceAll pat repl rest := by
  show replaceAllGo pat repl (c :: rest).length (c :: rest) = _
  simp only [List.length_cons, replaceAllGo]
  by_cases hc : pat.isPrefixOf (c :: rest) ∧ pat ≠ []
  · rw [if_pos hc, if_pos hc]
    congr 1
    exact replaceAllGo_fuel_irrel pat repl (rest.drop (pat.length - 1)).length
      rest.length (rest.drop (pat.length - 1)).length _ rfl
      (by simp only [List.length_drop]; omega) le_rfl
  · rw [if_neg hc, if_neg hc]
    rfl

/-- Text without an occurrence of the pattern is left unchanged. -/
theorem replaceAll_of_not_infix (pat repl : List Char) :
    ∀ xs : List Char, ¬ pat <:+: xs → replaceAll pat repl xs = xs := by
  intro xs
  induction xs with
  | nil => intro _; rfl
  | cons c rest ih =>
    intro h
    rw [replaceAll_cons, if_neg ?_]
    · rw [ih (fun hinf => h (List.infix_cons hinf))]
    · intro hc
      exact h (List.isPrefixOf_iff_prefix.mp hc.1).isInfix

/-- Splitting an occurrence across a concatenation: it lies in the left
part, in the right part, or crosses the boundary with a nonempty proper
prefix of the pattern ending the left part. -/
theorem infix_append_cases {α : Type} (pat x y : List α) (h : pat <:+: x ++ y) :
    pat <:+: x ∨ pat <:+: y ∨
      ∃ m, 0 < m ∧ m < pat.length ∧ pat.take m <:+ x ∧ pat.drop m <+: y := by
  obtain ⟨u, v, huv⟩ := h
  by_cases hux : x.length ≤ u.length
  · have hu : u <+: x ++ y := ⟨pat ++ v, by simpa [List.append_assoc] using huv⟩
    have hx : x <+: u :=
      List.prefix_of_prefix_length_le (List.prefix_append x y) hu hux
    obtain ⟨u', hu'⟩ := hx
    right; left
    refine ⟨u', v, ?_⟩
    have : x ++ (u' ++ pat ++ v) = x ++ y := by
      rw [← huv, ← hu']
      simp [List.append_assoc]
    have := List.append_cancel_left this
    simpa [List.append_assoc] using this
  · by_cases hup : u.length + pat.length ≤ x.length
    · left
      have hupre : u ++ pat <+: x ++ y := ⟨v, by simpa [List.append_assoc] using huv⟩
      have : u ++ pat <+: x :=
        List.prefix_of_prefix_length_le hupre (List.prefix_append x y)
          (by simpa using hup)
      obtain ⟨r, hr⟩ := this
      exact ⟨u, r, by simpa [List.append_assoc] using hr⟩
    · right; right
      refine ⟨x.length - u.length, by omega, by omega, ?_, ?_⟩
      · have hx : x = u ++ pat.take (x.length - u.length) := by
          have h1 : (u ++ (pat ++ v)).take x.length = x := by
            rw [show u ++ (pat ++ v) = x ++ y by simpa [List.append_assoc] using huv]
            exact List.take_left' rfl
          rw [List.take_append_eq_append_take, List.take_of_length_le (by omega),
            List.take_append_of_le_length (by omega)] at h1
          exact h1.symm
        exact ⟨u, hx.symm⟩
      · have hy : pat.drop (x.length - u.length) ++ v = y := by
          have h1 : (u ++ (pat ++ v)).drop x.length = y := by
            rw [show u ++ (pat ++ v) = x ++ y by simpa [List.append_assoc] using huv]
            exact List.drop_left' rfl
          rw [List.drop_append_eq_append_drop, List.drop_of_length_le (by omega),
            List.drop_append_of_le_length (by omega)] at h1
          simpa using h1
        exact ⟨v, hy⟩

/-- If no occurrence of the pattern starts inside `x`, the scan passes
over `x` untouched.  The hypothesis says the pattern is not an infix of
`x` extended by the first `|pat| - 1` characters of `y`, which is
exactly "no occurrence starts before the boundary". -/
theorem replaceAll_append_of_not_infix (pat repl : List Char) (hne : pat ≠ []) :
    ∀ (x y : List Char), ¬ pat <:+: x ++ y.take (pat.length - 1) →
      replaceAll pat repl (x ++ y) = x ++ replaceAll pat repl y := by
  intro x
  induction x with
  | nil => intro y _; rfl
  | cons c x' ih =>
    intro y hC
    rw [List.cons_append, replaceAll_cons, if_neg ?_]
    · rw [ih y (fun hinf => hC (List.infix_cons hinf))]
      rfl
    · intro hc
      apply hC
      have hpre : pat <+: (c :: x') ++ y := List.isPrefixOf_iff_prefix.mp hc.1
      have hL : 1 ≤ pat.length := by
        cases hp : pat with
        | nil => exact absurd hp hne
        | cons a as => simp
      apply List.IsPrefix.isInfix
      by_cases hlen : pat.length ≤ (c :: x').length
      · exact (List.prefix_of_prefix_length_le hpre
          (List.prefix_append (c :: x') y) hlen).trans
          (List.prefix_append _ _)
      · have hxp : (c :: x') <+: pat :=
          List.prefix_of_prefix_length_le (List.prefix_append (c :: x') y) hpre
            (by omega)
        obtain ⟨r, hr⟩ := hxp
        have hrlen : x'.length + r.length + 1 = pat.length := by
          have := congrArg List.length hr
          simpa using this
        have hlen' : ¬ pat.length ≤ x'.length + 1 := by
          simpa using hlen
        obtain ⟨q, hq⟩ := hpre
        have hry : r <+: y := by
          refine ⟨q, ?_⟩
          have : (c :: x') ++ (r ++ q) = (c :: x') ++ y := by
            rw [← List.append_assoc, hr, hq]
          exact List.append_cancel_left this
        have hrtake : r <+: y.take (pat.length - 1) := by
          rw [List.prefix_iff_eq_take.mp hry]
          exact List.take_prefix_take_left y (by omega)
        have hfin : (c :: x') ++ r <+: (c :: x') ++ y.take (pat.length - 1) :=
          (List.prefix_append_right_inj (c :: x')).mpr hrtake
        rw [hr] at hfin
        exact hfin

/-- The scan fires immediately on a leading occurrence of the pattern. -/
theorem replaceAll_append_pat (pat repl : List Char) (hne : pat ≠ []) (z : List Char) :
    replaceAll pat repl (pat ++ z) = repl ++ replaceAll pat repl z := by
  cases hp : pat with
  | nil => exact absurd hp hne
  | cons p pt =>
    rw [List.cons_append, replaceAll_cons, if_pos ?_]
    · congr 2
      simp
    · constructor
      · rw [← List.cons_append, ← hp]
        exact List.isPrefixOf_iff_prefix.mpr (List.prefix_append pat z)
      · simp

/-! Facts about the decimal token text `<Pn>`. -/

theorem head?_mem_list {l : List Char} {c : Char} (h : l.head? = some c) : c ∈ l := by
  cases l with
  | nil => simp at h
  | cons x xs =>
    simp only [List.head?_cons, Option.some.injEq] at h
    subst h
    exact List.mem_cons_self _ _

theorem prefix_head?_eq {u z : List Char} (h : u <+: z) (hu : u ≠ []) :
    u.head? = z.head? := by
  cases u with
  | nil => exact absurd rfl hu
  | cons u0 us =>
    cases z with
    | nil => simp at h
    | cons z0 zs =>
      have := (List.cons_prefix_cons.mp h).1
      simp [this]

theorem digitChar_mem (d : Nat) : digitChar d ∈ digitChars := by
  have h : d % 10 < 10 := Nat.mod_lt _ (by norm_num)
  unfold digitChar
  rw [List.getD_eq_getElem?_getD,
    List.getElem?_eq_getElem (by simpa [digitChars] using h), Option.getD_some]
  exact List.getElem_mem _

theorem digitsLSBGo_mem : ∀ (fuel n : Nat), ∀ c ∈ digitsLSBGo fuel n, c ∈ digitChars := by
  intro fuel
  induction fuel with
  | zero =>
    intro n c hc
    cases n <;> simp [digitsLSBGo] at hc
  | succ fuel ih =>
    intro n c hc
    cases n with
    | zero => simp [digitsLSBGo] at hc
    | succ m =>
      simp only [digitsLSBGo, List.mem_cons] at hc
      rcases hc with h | h
      · subst h; exact digitChar_mem _
      · exact ih _ c h

theorem natDigits_mem (n : Nat) : ∀ c ∈ natDigits n, c ∈ digitChars := by
  intro c hc
  unfold natDigits at hc
  split at hc
  · simp only [List.mem_singleton] at hc
    subst hc
    decide
  · rw [List.mem_reverse] at hc
    exact digitsLSBGo_mem n n c hc

theorem natDigits_ne_nil (n : Nat) : natDigits n ≠ [] := by
  unfold natDigits
  split
  · simp
  · next h =>
    cases n with
    | zero => exact absurd rfl h
    | succ m => simp [digitsLSBGo]

theorem digitVal_digitChar (d : Nat) : digitVal (digitChar d) = d % 10 := by
  have h : d % 10 < 10 := Nat.mod_lt _ (by norm_num)
  obtain ⟨m, hm⟩ : ∃ m, d % 10 = m := ⟨_, rfl⟩
  rw [hm] at h
  unfold digitChar
  rw [hm]
  interval_cases m <;> decide

theorem lsbVal_digitsLSBGo : ∀ (fuel n : Nat), n ≤ fuel → lsbVal (digitsLSBGo fuel n) = n := by
  intro fuel
  induction fuel with
  | zero =>
    intro n h
    interval_cases n
    rfl
  | succ fuel ih =>
    intro n h
    cases n with
    | zero => rfl
    | succ m =>
      simp only [digitsLSBGo, lsbVal]
      have hdiv : (m + 1) / 10 < m + 1 := Nat.div_lt_self (Nat.succ_pos m) (by norm_num)
      rw [ih ((m + 1) / 10) (by omega), digitVal_digitChar]
      omega

theorem natDigits_inj {a b : Nat} (h : natDigits a = natDigits b) : a = b := by
  have hzero : ∀ n : Nat, n ≠ 0 → ['0'] = (digitsLSBGo n n).reverse → False := by
    intro n hn he
    have h2 : digitsLSBGo n n = ['0'] := by
      have := congrArg List.reverse he
      simpa using this.symm
    have h3 := lsbVal_digitsLSBGo n n le_rfl
    rw [h2] at h3
    have : lsbVal ['0'] = 0 := by decide
    omega
  by_cases ha : a = 0 <;> by_cases hb : b = 0
  · omega
  · exfalso
    rw [natDigits, if_pos ha, natDigits, if_neg hb] at h
    exact hzero b hb h
  · exfalso
    rw [natDigits, if_neg ha, natDigits, if_pos hb] at h
    exact hzero a ha h.symm
  · rw [natDigits, if_neg ha, natDigits, if_neg hb] at h
    have h2 : digitsLSBGo a a = digitsLSBGo b b := by
      have := congrArg List.reverse h
      simpa using this
    have h3 := lsbVal_digitsLSBGo a a le_rfl
    have h4 := lsbVal_digitsLSBGo b b le_rfl
    rw [h2] at h3
    omega

theorem tok_tail_no_lt (n : Nat) : '<' ∉ ('P' :: (natDigits n ++ ['>'])) := by
  intro h
  simp only [List.mem_cons, List.mem_append, List.mem_singleton] at h
  rcases h with h | h | h
  · exact absurd h (by decide)
  · exact absurd (natDigits_mem n '<' h) (by decide)
  · exact absurd h (by decide)

theorem tok_ne_nil (n : Nat) : tok n ≠ [] := by simp [tok]

theorem tok_length (n : Nat) : 4 ≤ (tok n).length := by
  have h : 1 ≤ (natDigits n).length := List.length_pos.mpr (natDigits_ne_nil n)
  simp only [tok, List.length_cons, List.length_append, List.length_singleton]
  omega

theorem gt_not_mem_tok_init (n : Nat) : '>' ∉ ('<' :: 'P' :: natDigits n) := by
  intro h
  simp only [List.mem_cons] at h
  rcases h with h | h | h
  · exact absurd h (by decide)
  · exact absurd h (by decide)
  · exact absurd (natDigits_mem n '>' h) (by decide)

theorem mem_tok_chars (n : Nat) :
    ∀ c ∈ tok n, c = '<' ∨ c = 'P' ∨ c ∈ digitChars ∨ c = '>' := by
  intro c hc
  simp only [tok, List.mem_cons, List.mem_append, List.mem_singleton,
    List.not_mem_nil, or_false] at hc
  rcases hc with h | h | h | h
  · exact Or.inl h
  · exact Or.inr (Or.inl h)
  · exact Or.inr (Or.inr (Or.inl (natDigits_mem n c h)))
  · exact Or.inr (Or.inr (Or.inr h))

theorem closing_not_mem_tok (n : Nat) {c : Char} (hc : c ∈ tok n) :
    c ≠ ']' ∧ c ≠ '}' := by
  rcases mem_tok_chars n c hc with h | h | h | h
  · subst h; exact ⟨by decide, by decide⟩
  · subst h; exact ⟨by decide, by decide⟩
  · constructor <;> intro he <;> subst he <;> revert h <;> decide
  · subst h; exact ⟨by decide, by decide⟩

/-- A suffix of a list of the shape `'<' :: t` (with no other `'<'`)
that itself starts with `'<'` is the whole list. -/
theorem suffix_head_lt {t u : List Char} (hlt : '<' ∉ t)
    (hsuf : u <:+ ('<' :: t)) (hh : u.head? = some '<') : u = '<' :: t := by
  obtain ⟨p, hp⟩ := hsuf
  cases p with
  | nil => simpa using hp
  | cons q p' =>
    exfalso
    rw [List.cons_append] at hp
    injection hp with h1 h2
    apply hlt
    rw [← h2]
    exact List.mem_append_right _ (head?_mem_list hh)

theorem tok_inj {a b : Nat} (h : tok a = tok b) : a = b := by
  simp only [tok, List.cons.injEq, true_and] at h
  exact natDigits_inj (List.append_inj' h rfl).1

theorem tok_prefix_tok {a b : Nat} (h : tok a <+: tok b) : a = b := by
  by_cases heq : (tok a).length = (tok b).length
  · exact tok_inj (h.eq_of_length heq)
  · exfalso
    have hlt : (tok a).length < (tok b).length := Nat.lt_of_le_of_ne h.length_le heq
    have hform : tok b = ('<' :: 'P' :: natDigits b) ++ ['>'] := by simp [tok]
    have hpre2 : tok a <+: ('<' :: 'P' :: natDigits b) := by
      refine List.prefix_of_prefix_length_le (hform ▸ h) (hform ▸ List.prefix_append _ _) ?_
      have h1 : (tok b).length = ('<' :: 'P' :: natDigits b).length + 1 := by
        simp [tok]
      omega
    have hgt : '>' ∈ tok a := by simp [tok]
    exact gt_not_mem_tok_init b (hpre2.sublist.subset hgt)

theorem tok_not_infix_tok {a b : Nat} (hne : a ≠ b) : ¬ tok a <:+: tok b := by
  intro h
  rcases List.infix_iff_prefix_suffix.mp h with ⟨t, hpre, hsuf⟩
  have hta : t ≠ [] := by
    intro ht
    subst ht
    exact tok_ne_nil a (List.prefix_nil.mp hpre)
  have hh : t.head? = some '<' := by
    rw [← prefix_head?_eq hpre (tok_ne_nil a)]
    rfl
  have ht : t = tok b := suffix_head_lt (tok_tail_no_lt b) hsuf hh
  rw [ht] at hpre
  exact hne (tok_prefix_tok hpre)

theorem nlTok_not_infix_tok (b : Nat) : ¬ nlTok <:+: tok b := by
  intro h
  rcases List.infix_iff_prefix_suffix.mp h with ⟨t, hpre, hsuf⟩
  have hh : t.head? = some '<' := by
    rw [← prefix_head?_eq hpre (by simp [nlTok])]
    rfl
  have ht : t = tok b := suffix_head_lt (tok_tail_no_lt b) hsuf hh
  rw [ht] at hpre
  have h1 := (List.cons_prefix_cons.mp hpre).2
  have h2 := (List.cons_prefix_cons.mp h1).1
  exact absurd h2 (by decide)

theorem tok_take_ne_tok {a b m : Nat} (h0 : 0 < m) (hm : m < (tok a).length) :
    (tok a).take m ≠ tok b := by
  intro heq
  have hpre : tok b <+: tok a := heq ▸ List.take_prefix m (tok a)
  have hlenb : (tok b).length = m := by
    rw [← heq]
    simp only [List.length_take]
    omega
  have hgt : '>' ∈ tok b := by simp [tok]
  have hforma : tok a = ('<' :: 'P' :: natDigits a) ++ ['>'] := by simp [tok]
  have hinit : tok b <+: ('<' :: 'P' :: natDigits a) := by
    refine List.prefix_of_prefix_length_le (hforma ▸ hpre)
      (hforma ▸ List.prefix_append _ _) ?_
    have h1 : (tok a).length = ('<' :: 'P' :: natDigits a).length + 1 := by simp [tok]
    omega
  exact gt_not_mem_tok_init a (hinit.sublist.subset hgt)

theorem nlTok_take_ne_tok {b m : Nat} (h0 : 0 < m) (hm : m < nlTok.length) :
    nlTok.take m ≠ tok b := by
  intro heq
  have hlen : (nlTok.take m).length < 4 := by
    simp only [List.length_take]
    have : nlTok.length = 4 := rfl
    omega
  rw [heq] at hlen
  exact absurd (tok_length b) (by omega)

/-! Scanner facts: the chunks partition the input and every match ends
with a closing delimiter. -/

theorem matchBracket_spec {cs v rest : List Char} (h : matchBracket cs = some (v, rest)) :
    v ++ rest = '[' :: cs ∧ 0 < v.length ∧ ∃ vb, v = vb ++ [']'] ∨ v = vb ++ ['}'] := by
  simp only [matchBracket, List.span_eq_take_drop] at h
  split at h
  · next rest' heq =>
    by_cases he : (List.takeWhile (fun c => c != ']') cs).isEmpty
    · rw [if_pos he] at h
      exact absurd h (by simp)
    · rw [if_neg he] at h
      simp only [Option.some.injEq, Prod.mk.injEq] at h
      obtain ⟨hv, hr⟩ := h
      subst hv
      subst hr
      refine ⟨?_, by simp, ⟨'[' :: List.takeWhile (fun c => c != ']') cs, Or.inl (by simp)⟩⟩
      conv_rhs =>
        rw [show cs =
          List.takeWhile (fun c => c != ']') cs ++ List.dropWhile (fun c => c != ']') cs from
          (List.takeWhile_append_dropWhile _ _).symm, heq]
      simp
  · exact absurd h (by simp)

theorem matchBrace_spec {cs v rest : List Char} (h : matchBrace cs = some (v, rest)) :
    v ++ rest = '{' :: cs ∧ 0 < v.length ∧ ∃ vb, v = vb ++ [']'] ∨ v = vb ++ ['}'] := by
  simp only [matchBrace, List.span_eq_take_drop] at h
  split at h
  · next rest' heq =>
    simp only [Option.some.injEq, Prod.mk.injEq] at h
    obtain ⟨hv, hr⟩ := h
    subst hv
    subst hr
    refine ⟨?_, by simp,
      ⟨'{' :: List.takeWhile (fun c => c != '{' && c != '}') cs, Or.inr (by simp)⟩⟩
    conv_rhs =>
      rw [show cs =
        List.takeWhile (fun c => c != '{' && c != '}') cs ++
          List.dropWhile (fun c => c != '{' && c != '}') cs from
        (List.takeWhile_append_dropWhile _ _).symm, heq]
    simp
  · exact absurd h (by simp)

theorem matchAt_spec {xs v rest : List Char} (h : matchAt xs = some (v, rest)) :
    v ++ rest = xs ∧ 0 < v.length ∧ ∃ vb, v = vb ++ [']'] ∨ v = vb ++ ['}'] := by
  unfold matchAt at h
  split at h
  · exact matchBracket_spec h
  · exact matchBrace_spec h
  · exact absurd h (by simp)

theorem scanChunksGo_orig :
    ∀ (fuel : Nat) (xs : List Char), xs.length ≤ fuel →
      origOf (scanChunksGo fuel xs).1 (scanChunksGo fuel xs).2 = xs := by
  intro fuel
  induction fuel with
  | zero =>
    intro xs h
    have hx : xs = [] := List.eq_nil_of_length_eq_zero (by omega)
    subst hx
    rfl
  | succ fuel ih =>
    intro xs h
    cases xs with
    | nil => rfl
    | cons c cs =>
      simp only [List.length_cons] at h
      cases hm : matchAt (c :: cs) with
      | some vr =>
        obtain ⟨v, rest⟩ := vr
        obtain ⟨hvr, hvpos, -⟩ := matchAt_spec hm
        have hrest : rest.length ≤ fuel := by
          have := congrArg List.length hvr
          simp only [List.length_append, List.length_cons] at this
          omega
        simp only [scanChunksGo, hm, origOf, List.nil_append]
        rw [ih rest hrest]
        exact hvr
      | none =>
        have hcs : cs.length ≤ fuel := by omega
        have hp := ih cs hcs
        simp only [scanChunksGo, hm]
        cases hp1 : (scanChunksGo fuel cs).1 with
        | nil =>
          rw [hp1] at hp
          simp only [origOf] at hp ⊢
          rw [hp]
        | cons pr ps =>
          obtain ⟨w, v⟩ := pr
          rw [hp1] at hp
          simp only [origOf] at hp ⊢
          simp only [List.cons_append]
          rw [hp]

theorem scanChunksGo_wf :
    ∀ (fuel : Nat) (xs : List Char) (pr : List Char × List Char),
      pr ∈ (scanChunksGo fuel xs).1 →
      ∃ vb, pr.2 = vb ++ [']'] ∨ pr.2 = vb ++ ['}'] := by
  intro fuel
  induction fuel with
  | zero =>
    intro xs pr hpr
    cases xs <;> simp [scanChunksGo] at hpr
  | succ fuel ih =>
    intro xs pr hpr
    cases xs with
    | nil => simp [scanChunksGo] at hpr
    | cons c cs =>
      cases hm : matchAt (c :: cs) with
      | some vr =>
        obtain ⟨v, rest⟩ := vr
        simp only [scanChunksGo, hm, List.mem_cons] at hpr
        rcases hpr with hpr | hpr
        · subst hpr
          obtain ⟨-, -, vb, hvb⟩ := matchAt_spec hm
          exact ⟨vb, hvb⟩
        · exact ih rest pr hpr
      | none =>
        simp only [scanChunksGo, hm] at hpr
        cases hp1 : (scanChunksGo fuel cs).1 with
        | nil =>
          rw [hp1] at hpr
          simp at hpr
        | cons q ps =>
          obtain ⟨w, v⟩ := q
          rw [hp1] at hpr
          simp only [List.mem_cons] at hpr
          rcases hpr with hpr | hpr
          · subst hpr
            have : (w, v) ∈ (scanChunksGo fuel cs).1 := by
              rw [hp1]; exact List.mem_cons_self _ _
            exact ih cs (w, v) this
          · have : pr ∈ (scanChunksGo fuel cs).1 := by
              rw [hp1]; exact List.mem_cons_of_mem _ hpr
            exact ih cs pr this

theorem scan_orig (xs : List Char) :
    origOf (scanChunks xs).1 (scanChunks xs).2 = xs :=
  scanChunksGo_orig xs.length xs le_rfl

theorem scan_wf (xs : List Char) :
    ∀ pr ∈ (scanChunks xs).1, ∃ vb, pr.2 = vb ++ [']'] ∨ pr.2 = vb ++ ['}'] :=
  fun pr h => scanChunksGo_wf xs.length xs pr h

/-! Render lemmas and the replacement argument. -/

theorem renderMix_all_tok :
    ∀ (ps : List (List Char × List Char)) (w : List Char) (n k k' : Nat),
      k ≤ n → k' ≤ n → renderMix ps w n k = renderMix ps w n k' := by
  intro ps
  induction ps with
  | nil => intros; rfl
  | cons pr ps ih =>
    intro w n k k' hk hk'
    obtain ⟨a, v⟩ := pr
    simp only [renderMix, if_neg (by omega : ¬ n < k), if_neg (by omega : ¬ n < k')]
    rw [ih w (n + 1) k k' (by omega) (by omega)]

theorem renderMix_orig :
    ∀ (ps : List (List Char × List Char)) (w : List Char) (n k : Nat),
      n + ps.length ≤ k → renderMix ps w n k = origOf ps w := by
  intro ps
  induction ps with
  | nil => intros; rfl
  | cons pr ps ih =>
    intro w n k h
    obtain ⟨a, v⟩ := pr
    simp only [List.length_cons] at h
    simp only [renderMix, origOf, if_pos (by omega : n < k)]
    rw [ih w (n + 1) k (by omega)]

theorem suffix_getLast?_eq {u z : List Char} (h : u <:+ z) (hu : u ≠ []) :
    z.getLast? = u.getLast? := by
  obtain ⟨p, hp⟩ := h
  subst hp
  rw [List.getLast?_append]
  cases hl : u.getLast? with
  | none => exact absurd (List.getLast?_eq_none_iff.mp hl) hu
  | some c => simp

theorem getLast?_mem_list {l : List Char} {c : Char} (h : l.getLast? = some c) : c ∈ l := by
  obtain ⟨ys, hys⟩ := List.getLast?_eq_some_iff.mp h
  subst hys
  exact List.mem_append_right _ (List.mem_cons_self _ _)

theorem pat_drop_head_ne_lt {pt : List Char} (hlt : '<' ∉ pt) {m : Nat} (h0 : 0 < m) :
    (('<' :: pt).drop m).head? ≠ some '<' := by
  intro h
  cases m with
  | zero => omega
  | succ k =>
    have he : ('<' :: pt).drop (k + 1) = pt.drop k := rfl
    rw [he] at h
    exact hlt (List.drop_subset _ _ (head?_mem_list h))

/-- In a rendering where every placeholder still shows as its token, a
pattern of the shape `'<' :: pt` (one leading `'<'`, none later) that
occurs neither in the original text nor in (or as a prefix-fragment of)
any rendered token does not occur at all: occurrences inside plain runs
would be occurrences in the original, and occurrences crossing a
boundary are impossible because every continuation would have to start
with `'<'`. -/
theorem notInfix_render (s pat pt : List Char) (hps : pat = '<' :: pt) (hlt : '<' ∉ pt)
    (hs : ¬ pat <:+: s)
    (htk : ∀ j m : Nat, 0 < m → m < pat.length → pat.take m ≠ tok j) :
    ∀ (ps : List (List Char × List Char)) (w : List Char) (n k₀ : Nat),
      k₀ ≤ n → (∀ j, n ≤ j → ¬ pat <:+: tok j) →
      origOf ps w <:+: s →
      ¬ pat <:+: renderMix ps w n k₀ := by
  intro ps
  induction ps with
  | nil =>
    intro w n k₀ _ _ horig h
    exact hs (h.trans horig)
  | cons pr ps ih =>
    intro w n k₀ hk htokj horig h
    obtain ⟨a, v⟩ := pr
    rw [renderMix, if_neg (by omega : ¬ n < k₀), List.append_assoc] at h
    have horigtail : origOf ps w <:+: s := by
      refine List.IsInfix.trans ?_ horig
      exact ⟨a ++ v, [], by simp [origOf]⟩
    rcases infix_append_cases pat a (tok n ++ renderMix ps w (n + 1) k₀) h with
      hA | hTR | ⟨m, hm0, hmL, htake, hdrop⟩
    · apply hs
      refine hA.trans (List.IsInfix.trans ?_ horig)
      exact ⟨[], v ++ origOf ps w, by simp [origOf]⟩
    · rcases infix_append_cases pat (tok n) (renderMix ps w (n + 1) k₀) hTR with
        hT | hR | ⟨m, hm0, hmL, htake, hdrop⟩
      · exact htokj n le_rfl hT
      · exact ih w (n + 1) k₀ (by omega) (fun j hj => htokj j (by omega)) horigtail hR
      · have htmne : pat.take m ≠ [] := by
          intro hnil
          have := congrArg List.length hnil
          simp only [List.length_take, List.length_nil] at this
          omega
        have hhead : (pat.take m).head? = some '<' := by
          subst hps
          cases m with
          | zero => omega
          | succ m' => rfl
        have heqtok : pat.take m = tok n :=
          suffix_head_lt (tok_tail_no_lt n) htake hhead
        exact htk n m hm0 hmL heqtok
    · have hdropne : pat.drop m ≠ [] := by
        intro hnil
        have := congrArg List.length hnil
        simp only [List.length_drop, List.length_nil] at this
        omega
      have hhead2 : (tok n ++ renderMix ps w (n + 1) k₀).head? = some '<' := by
        have h1 : (tok n).head? = some '<' := rfl
        rw [List.head?_append, h1]
        rfl
      have hph := prefix_head?_eq hdrop hdropne
      rw [hhead2] at hph
      subst hps
      exact pat_drop_head_ne_lt hlt hm0 hph

/-- Replacing token `k` in the rendering with thresholds `k` replaced
yields the rendering with threshold `k + 1`: the designated occurrence
is replaced by the recorded value and nothing else matches. -/
theorem replace_step (s : List Char) (hs : ∀ j, ¬ tok j <:+: s) :
    ∀ (ps : List (List Char × List Char)) (w : List Char) (n k : Nat) (v : List Char),
      n ≤ k →
      (∀ pr ∈ ps, ∃ vb, pr.2 = vb ++ [']'] ∨ pr.2 = vb ++ ['}']) →
      origOf ps w <:+: s →
      (∀ a b, ps[k - n]? = some (a, b) → v = b) →
      replaceAll (tok k) v (renderMix ps w n k) = renderMix ps w n (k + 1) := by
  intro ps
  induction ps with
  | nil =>
    intro w n k v _ _ horig _
    exact replaceAll_of_not_infix (tok k) v w (fun h => hs k (h.trans horig))
  | cons pr ps ih =>
    intro w n k v hk hwf horig hv
    obtain ⟨a, vv⟩ := pr
    have horigtail : origOf ps w <:+: s := by
      refine List.IsInfix.trans ?_ horig
      exact ⟨a ++ vv, [], by simp [origOf]⟩
    have hLpos : 0 < (tok k).length := List.length_pos.mpr (tok_ne_nil k)
    by_cases hnk : n < k
    · simp only [renderMix, if_pos hnk, if_pos (by omega : n < k + 1)]
      have hC : ¬ tok k <:+:
          (a ++ vv) ++ (renderMix ps w (n + 1) k).take ((tok k).length - 1) := by
        intro hinf
        rcases infix_append_cases (tok k) (a ++ vv) _ hinf with
          hL | hRt | ⟨m, hm0, hmL, htake, hdrop⟩
        · apply hs k
          refine hL.trans (List.IsInfix.trans ?_ horig)
          exact ⟨[], origOf ps w, by simp [origOf]⟩
        · have := hRt.length_le
          simp only [List.length_take] at this
          omega
        · obtain ⟨vb, hvb⟩ := hwf (a, vv) (List.mem_cons_self _ _)
          have htmne : (tok k).take m ≠ [] := by
            intro hnil
            have := congrArg List.length hnil
            simp only [List.length_take, List.length_nil] at this
            omega
          have hlast1 : (a ++ vv).getLast? = ((tok k).take m).getLast? :=
            suffix_getLast?_eq htake htmne
          have hvvne : vv ≠ [] := by
            rcases hvb with h | h
            · have h' : vv = vb ++ [']'] := h
              subst h'
              simp
            · have h' : vv = vb ++ ['}'] := h
              subst h'
              simp
          have hlast2 : (a ++ vv).getLast? = vv.getLast? :=
            suffix_getLast?_eq (List.suffix_append a vv) hvvne
          obtain ⟨c, hc⟩ : ∃ c, ((tok k).take m).getLast? = some c := by
            cases hgl : ((tok k).take m).getLast? with
            | none => exact absurd (List.getLast?_eq_none_iff.mp hgl) htmne
            | some c => exact ⟨c, rfl⟩
          have hcmem : c ∈ tok k :=
            List.take_subset m (tok k) (getLast?_mem_list hc)
          have hcend := closing_not_mem_tok k hcmem
          rcases hvb with h | h
          · have h' : vv = vb ++ [']'] := h
            rw [h', List.getLast?_concat] at hlast2
            rw [h'] at hlast1
            rw [hlast1, hc] at hlast2
            exact hcend.1 (by injection hlast2)
          · have h' : vv = vb ++ ['}'] := h
            rw [h', List.getLast?_concat] at hlast2
            rw [h'] at hlast1
            rw [hlast1, hc] at hlast2
            exact hcend.2 (by injection hlast2)
      rw [ replaceAll_append_of_not_infix (tok k) v (tok_ne_nil k) (a ++ vv) _ hC]
      congr 1
      refine ih w (n + 1) k v (by omega) (fun pr h => hwf pr (List.mem_cons_of_mem _ h))
        horigtail ?_
      intro a' b' hg
      apply hv a' b'
      have hkn : k - n = (k - (n + 1)) + 1 := by omega
      rw [hkn]
      simpa using hg
    · have hnk' : n = k := by omega
      subst hnk'
      have hvv : v = vv := hv a vv (by simp)
      simp only [renderMix, if_neg (lt_irrefl n), if_pos (Nat.lt_succ_self n)]
      rw [← hvv]
      have hC2 : ¬ tok n <:+:
          a ++ (tok n ++ renderMix ps w (n + 1) n).take ((tok n).length - 1) := by
        intro hinf
        rcases infix_append_cases (tok n) a _ hinf with
          hL | hRt | ⟨m, hm0, hmL, htake, hdrop⟩
        · apply hs n
          refine hL.trans (List.IsInfix.trans ?_ horig)
          exact ⟨[], vv ++ origOf ps w, by simp [origOf]⟩
        · have := hRt.length_le
          simp only [List.length_take] at this
          omega
        · have hdropne : (tok n).drop m ≠ [] := by
            intro hnil
            have := congrArg List.length hnil
            simp only [List.length_drop, List.length_nil] at this
            omega
          have hdrop2 : (tok n).drop m <+: tok n ++ renderMix ps w (n + 1) n :=
            hdrop.trans (List.take_prefix _ _)
          have hhead2 : (tok n ++ renderMix ps w (n + 1) n).head? = some '<' := by
            have h1 : (tok n).head? = some '<' := rfl
            rw [List.head?_append, h1]
            rfl
          have hph := prefix_head?_eq hdrop2 hdropne
          rw [hhead2] at hph
          exact pat_drop_head_ne_lt (tok_tail_no_lt n) hm0 hph
      have hnoR : ¬ tok n <:+: renderMix ps w (n + 1) n :=
        notInfix_render s (tok n) ('P' :: (natDigits n ++ ['>'])) rfl
          (tok_tail_no_lt n) (hs n) (fun j m h0 hm => tok_take_ne_tok h0 hm) ps w (n + 1) n
          (by omega) (fun j hj => tok_not_infix_tok (by omega)) horigtail
      have hmain : replaceAll (tok n) v (a ++ (tok n ++ renderMix ps w (n + 1) n)) =
          a ++ (v ++ renderMix ps w (n + 1) (n + 1)) := by
        rw [ replaceAll_append_of_not_infix (tok n) v (tok_ne_nil n) a _ hC2,
          replaceAll_append_pat (tok n) v (tok_ne_nil n),
          replaceAll_of_not_infix (tok n) v _ hnoR,
          renderMix_all_tok ps w (n + 1) n (n + 1) (by omega) (by omega)]
      calc replaceAll (tok n) v (a ++ tok n ++ renderMix ps w (n + 1) n)
          = replaceAll (tok n) v (a ++ (tok n ++ renderMix ps w (n + 1) n)) := by
            rw [List.append_assoc]
        _ = a ++ (v ++ renderMix ps w (n + 1) (n + 1)) := hmain
        _ = a ++ v ++ renderMix ps w (n + 1) (n + 1) := by rw [List.append_assoc]

/-- The token-map fold of `unmask_text` restores the original text, one
token per step. -/
theorem unmask_fold (s : List Char) (hs : ∀ j, ¬ tok j <:+: s) :
    ∀ (psd ps : List (List Char × List Char)) (w : List Char) (k : Nat),
      psd = ps.drop k →
      (∀ pr ∈ ps, ∃ vb, pr.2 = vb ++ [']'] ∨ pr.2 = vb ++ ['}']) →
      origOf ps w = s →
      List.foldl (fun acc pr => replaceAll pr.1 pr.2 acc) (renderMix ps w 0 k)
        (tokenPairs psd k) = s := by
  intro psd
  induction psd with
  | nil =>
    intro ps w k hdrop hwf horig
    simp only [tokenPairs, List.foldl_nil]
    have hlen : ps.length ≤ k := by
      have := congrArg List.length hdrop.symm
      simp only [List.length_drop, List.length_nil] at this
      omega
    rw [renderMix_orig ps w 0 k (by omega), horig]
  | cons pr psd ih =>
    intro ps w k hdrop hwf horig
    obtain ⟨a, vv⟩ := pr
    simp only [tokenPairs, List.foldl_cons]
    have hget : ps[k]? = some (a, vv) := by
      have h0 : (ps.drop k)[0]? = some (a, vv) := by rw [← hdrop]; simp
      rw [List.getElem?_drop] at h0
      simpa using h0
    have hv : ∀ a' b' : List Char, ps[k - 0]? = some (a', b') → vv = b' := by
      intro a' b' hg
      rw [Nat.sub_zero, hget] at hg
      simp only [Option.some.injEq, Prod.mk.injEq] at hg
      exact hg.2
    have hstep := replace_step s hs ps w 0 k vv (Nat.zero_le k) hwf
      (by rw [horig] : origOf ps w <:+: s) hv
    rw [hstep]
    refine ih ps w (k + 1) ?_ hwf horig
    have h1 : ps.drop (k + 1) = (ps.drop k).drop 1 := by
      rw [List.drop_drop]
    rw [h1, ← hdrop]
    rfl

/-- C1 counterexample.  The string `"<NL>"` contains no bracket or brace
delimiter at all (so its placeholder syntax is trivially balanced and
well formed), masking leaves it unchanged with an empty token map, yet
unmasking rewrites the `<NL>` marker to a literal newline, so the
claimed round trip `unmask_text(mask_text(s)) = s` fails on it. -/
theorem c1_counterexample :
    (∀ c ∈ "<NL>".data, c ≠ '[' ∧ c ≠ ']' ∧ c ≠ '{' ∧ c ≠ '}') ∧
    unmask_text (mask_text "<NL>".data).1 (mask_text "<NL>".data).2 ≠ "<NL>".data := by
  constructor
  · decide
  · decide

/-- C1 amended.  For every string that contains neither the internal
newline marker `<NL>` nor any masking token `<Pn>` as a substring (the
spec's own caveat that the token format must never collide with ordinary
text), unmasking the masked text with the produced token map returns the
string exactly; in particular this holds for all such strings with
balanced placeholder syntax, and no balancedness assumption is even
needed, since malformed delimiters are simply left as plain text. -/
theorem c1_roundtrip (s : List Char) (hNL : ¬ nlTok <:+: s)
    (hTok : ∀ n, ¬ tok n <:+: s) :
    unmask_text (mask_text s).1 (mask_text s).2 = s := by
  have horig := scan_orig s
  have hwf := scan_wf s
  have hnl : ¬ nlTok <:+: renderMix (scanChunks s).1 (scanChunks s).2 0 0 :=
    notInfix_render s nlTok ['N', 'L', '>'] rfl (by decide) hNL
      (fun j m h0 hm => nlTok_take_ne_tok h0 hm)
      (scanChunks s).1 (scanChunks s).2 0 0 le_rfl
      (fun j _ => nlTok_not_infix_tok j) (by rw [horig])
  show List.foldl (fun acc pr => replaceAll pr.1 pr.2 acc)
    (replaceAll nlTok ['\n'] (renderMix (scanChunks s).1 (scanChunks s).2 0 0))
    (tokenPairs (scanChunks s).1 0) = s
  rw [ replaceAll_of_not_infix nlTok ['\n'] _ hnl]
  exact unmask_fold s hTok (scanChunks s).1 (scanChunks s).1 (scanChunks s).2 0 rfl hwf
    horig

/-- A string without `'<'` contains no masking token. -/
theorem no_lt_no_tok {s : List Char} (h : '<' ∉ s) : ∀ n, ¬ tok n <:+: s := by
  intro n hinf
  exact h (hinf.sublist.subset (List.mem_cons_self '<' _))

/-- A string without `'<'` does not contain the newline marker. -/
theorem no_lt_no_nl {s : List Char} (h : '<' ∉ s) : ¬ nlTok <:+: s := by
  intro hinf
  exact h (hinf.sublist.subset (List.mem_cons_self '<' _))

/-- Witness for C1 on a concrete string with both placeholder kinds. -/
theorem c1_roundtrip_witness :
    (¬ nlTok <:+: "Hi [name], {w} ok".data) ∧
    (∀ n, ¬ tok n <:+: "Hi [name], {w} ok".data) ∧
    unmask_text (mask_text "Hi [name], {w} ok".data).1
      (mask_text "Hi [name], {w} ok".data).2 = "Hi [name], {w} ok".data := by
  have hlt : '<' ∉ "Hi [name], {w} ok".data := by decide
  exact ⟨no_lt_no_nl hlt, no_lt_no_tok hlt,
    c1_roundtrip _ (no_lt_no_nl hlt) (no_lt_no_tok hlt)⟩

end YT
